import Mathlib

/-!
# Verification of the rpub XML document construction engine

Shallow embedding of `src/xml/parse.rs`: the tree builder that consumes
lexical parse events and assembles a namespace-aware document tree.
Text is modelled as lists of bytes (`List Nat`); names (prefixes, local
names) as Lean `String`s.  Machine integers are `Nat` (the Rust code uses
`usize` arithmetic that cannot overflow on the inputs considered, and the
one explicit ceiling, `u32::MAX`, is written out as a literal).

Parts of the repository that the builder uses but that are not in
`src/` (the `xml/mod.rs` storage types and the tokenizer's reference
decoder) are modelled from the spec; each such definition carries a
`Modelled from the spec:` doc comment.
-/

deriving instance DecidableEq for Except

namespace Rpub

/-- ASCII byte list of a Lean string (all strings used here are ASCII). -/
def ascii (s : String) : List Nat :=
  s.data.map (fun c => c.toNat)

/-- The reserved `xmlns` token (`XMLNS` in `parse.rs`). -/
def XMLNS : String := "xmlns"

/-- The reserved `xml` prefix (`NS_XML_PREFIX`). -/
def NS_XML_PFX : String := "xml"

/-- Byte form of the fixed xml namespace URI (`NS_XML_URI`). -/
def NS_XML_URI_B : List Nat := ascii "http://www.w3.org/XML/1998/namespace"

/-- Byte form of the xmlns namespace URI (`NS_XMLNS_URI`). -/
def NS_XMLNS_URI_B : List Nat := ascii "http://www.w3.org/2000/xmlns/"

/-- Errors of `parse.rs` (`enum Error`), with `TextPos` modelled as the
byte offset the position is computed from (position rendering lives in
the out-of-`src` module).  `Unreachable` models the `unreachable!()`
panics of the source: aborting outcomes that are not `Error` values in
Rust.  Only the variants reachable from the embedded builder are kept. -/
inductive Error where
  | InvalidXmlPfxUri (pos : Nat)
  | UnexpectedXmlUri (pos : Nat)
  | UnexpectedXmlnsUri (pos : Nat)
  | InvalidElementNamePfx (pos : Nat)
  | DuplicatedNamespace (name : String) (pos : Nat)
  | UnknownNamespace (name : String) (pos : Nat)
  | UnexpectedCloseTag (expected actual : String) (pos : Nat)
  | UnexpectedEntityCloseTag (pos : Nat)
  | MalformedEntityReference (pos : Nat)
  | DuplicatedAttribute (name : String) (pos : Nat)
  | NoRootNode
  | UnclosedRootNode
  | AttributesLimitReached
  | NamespacesLimitReached
  | Unreachable
  deriving Repr, DecidableEq

/-! ## Text buffer (`TextBuffer` in `parse.rs`)

The buffer is a byte list, pushed at the right end (`buffer.push`). -/

/-- `TextBuffer::push_raw`. -/
def push_raw (buffer : List Nat) (c : Nat) : List Nat :=
  buffer ++ [c]

/-- `TextBuffer::push_from_attr`: `\r` in `\r\n` is ignored; `\n`, `\r`
and `\t` are converted into spaces. -/
def push_from_attr (buffer : List Nat) (current : Nat) (next : Option Nat) : List Nat :=
  if current = 13 ∧ next = some 10 then
    buffer
  else
    buffer ++ [if current = 10 ∨ current = 13 ∨ current = 9 then 32 else current]

/-- `TextBuffer::push_from_text`: translate `\r\n` and any `\r` not
followed by `\n` into a single `\n`. -/
def push_from_text (buffer : List Nat) (c : Nat) (at_end : Bool) : List Nat :=
  if buffer.getLast? = some 13 then
    let buffer' := buffer.dropLast ++ [10]
    if at_end ∧ c = 13 then buffer' ++ [10]
    else if c ≠ 10 then buffer' ++ [c]
    else buffer'
  else if at_end ∧ c = 13 then
    buffer ++ [10]
  else
    buffer ++ [c]

/-! ## Spec-side normalization functions

These two functions state, in direct recursive form, the normalizations
that §4.3 of the spec describes; the theorems below compare the code's
buffer-based loops against them. -/

/-- Line-ending normalization as the spec words it: every `\r\n` pair and
every lone `\r` (a final one included) becomes a single `\n`. -/
def nlnorm : List Nat → List Nat
  | [] => []
  | [c] => [if c = 13 then 10 else c]
  | c :: d :: rest =>
    if c = 13 then
      if d = 10 then 10 :: nlnorm rest else 10 :: nlnorm (d :: rest)
    else c :: nlnorm (d :: rest)

/-- The per-character attribute whitespace substitution: tab, line feed
and carriage return become a space. -/
def attrSp (c : Nat) : Nat := if c = 10 ∨ c = 13 ∨ c = 9 then 32 else c

/-- Attribute-value normalization as the spec words it: tab, line feed and
carriage return collapse to one space each, except that a `\r` directly
before `\n` contributes nothing. -/
def attnorm : List Nat → List Nat
  | [] => []
  | [c] => [attrSp c]
  | c :: d :: rest =>
    if c = 13 ∧ d = 10 then attnorm (d :: rest) else attrSp c :: attnorm (d :: rest)

/-! ## Character references

`CharToBytes` plus `char::encode_utf8` amount to UTF-8 encoding a scalar
value; `Stream::try_consume_reference` lives in the tokenizer, which is
not under `src/`. -/

/-- UTF-8 encoding of a Unicode scalar value (model of `CharToBytes`
iterating over `char::encode_utf8`). -/
def utf8Encode (c : Nat) : List Nat :=
  if c < 0x80 then [c]
  else if c < 0x800 then
    [0xC0 + c / 0x40, 0x80 + c % 0x40]
  else if c < 0x10000 then
    [0xE0 + c / 0x1000, 0x80 + c / 0x40 % 0x40, 0x80 + c % 0x40]
  else
    [0xF0 + c / 0x40000, 0x80 + c / 0x1000 % 0x40, 0x80 + c / 0x40 % 0x40,
      0x80 + c % 0x40]

/-- Valid XML character test (the `<https://www.w3.org/TR/xml/#char32>`
set referenced by the error taxonomy). -/
def isXmlChar (c : Nat) : Bool :=
  c = 9 ∨ c = 10 ∨ c = 13 ∨ (32 ≤ c ∧ c ≤ 0xD7FF) ∨
    (0xE000 ≤ c ∧ c ≤ 0xFFFD) ∨ (0x10000 ≤ c ∧ c ≤ 0x10FFFF)

/-- Split a byte list at the first `;`, returning the bytes before it and
the bytes after it. -/
def takeUntilSemi : List Nat → Option (List Nat × List Nat)
  | [] => none
  | 59 :: rest => some ([], rest)
  | c :: rest =>
    match takeUntilSemi rest with
    | some (a, b) => some (c :: a, b)
    | none => none

/-- Value of an ASCII decimal digit byte. -/
def decDigit (c : Nat) : Option Nat :=
  if 48 ≤ c ∧ c ≤ 57 then some (c - 48) else none

/-- Value of an ASCII hexadecimal digit byte. -/
def hexDigit (c : Nat) : Option Nat :=
  if 48 ≤ c ∧ c ≤ 57 then some (c - 48)
  else if 97 ≤ c ∧ c ≤ 102 then some (c - 87)
  else if 65 ≤ c ∧ c ≤ 70 then some (c - 55)
  else none

/-- Fold a nonempty digit list in base `base` via `digit`. -/
def foldDigits (digit : Nat → Option Nat) (base : Nat) (l : List Nat) : Option Nat :=
  match l with
  | [] => none
  | _ :: _ =>
    l.foldlM (fun acc c => (digit c).map (fun d => acc * base + d)) 0

/-- `Modelled from the spec:` the tokenizer's
`Stream::try_consume_reference` (the tokenizer is not under `src/`).
Per §4.3, a `&` introduces a character or named-entity reference that
decodes to one Unicode scalar; `&#d;` and `&#xh;` are character
references, and with no internal subset the defined named references are
the five predefined ones.  Returns the scalar and the remaining bytes, or
`none` when the reference fails to parse. -/
def try_consume_reference (s : List Nat) : Option (Nat × List Nat) :=
  match s with
  | 38 :: 35 :: 120 :: rest =>
    match takeUntilSemi rest with
    | some (digits, after) =>
      match foldDigits hexDigit 16 digits with
      | some c => if isXmlChar c then some (c, after) else none
      | none => none
    | none => none
  | 38 :: 35 :: rest =>
    match takeUntilSemi rest with
    | some (digits, after) =>
      match foldDigits decDigit 10 digits with
      | some c => if isXmlChar c then some (c, after) else none
      | none => none
    | none => none
  | 38 :: rest =>
    match takeUntilSemi rest with
    | some (name, after) =>
      if name = ascii "amp" then some (38, after)
      else if name = ascii "lt" then some (60, after)
      else if name = ascii "gt" then some (62, after)
      else if name = ascii "quot" then some (34, after)
      else if name = ascii "apos" then some (39, after)
      else none
    | none => none
  | _ => none

/-! ## Text content processing (`process_text`, `parse_next_chunk`)

The Rust code walks a `Stream` over the chunk's byte range of the input;
the stream is modelled as the list of bytes not yet consumed.  Error
positions computed from the stream are modelled as the byte offset of the
token carrying the chunk (`tokPos`). -/

/-- One chunk from the stream (`enum NextChunk`). -/
inductive NextChunk where
  | byte (c : Nat)
  | chr (c : Nat)
  deriving Repr, DecidableEq

/-- `parse_next_chunk`: a `&` starts a reference (malformed when it fails
to parse); any other byte is consumed as itself.  Also returns the
remaining stream. -/
def parse_next_chunk (tokPos : Nat) (s : List Nat) : Except Error (NextChunk × List Nat) :=
  match s with
  | [] => .error .Unreachable
  | c :: rest =>
    if c = 38 then
      match try_consume_reference s with
      | some (ch, after) => .ok (.chr ch, after)
      | none => .error (.MalformedEntityReference tokPos)
    else
      .ok (.byte c, rest)

/-- The `while !stream.at_end()` loop of `process_text`, with explicit
fuel (each iteration consumes at least one byte, so fuel `s.length`
suffices).  `is_as_is` records that the previous chunk was a decoded
reference, whose following byte is pushed raw. -/
def process_text_loop (tokPos : Nat) :
    Nat → List Nat → List Nat → Bool → Except Error (List Nat)
  | _, [], buffer, _ => .ok buffer
  | 0, _ :: _, _, _ => .error .Unreachable
  | fuel + 1, s@(_ :: _), buffer, is_as_is =>
    match parse_next_chunk tokPos s with
    | .error e => .error e
    | .ok (.byte c, rest) =>
      if is_as_is then
        process_text_loop tokPos fuel rest (push_raw buffer c) false
      else
        process_text_loop tokPos fuel rest (push_from_text buffer c rest.isEmpty) false
    | .ok (.chr ch, rest) =>
      process_text_loop tokPos fuel rest (buffer ++ utf8Encode ch) true

/-- The pure part of `process_text`: the stored content of the chunk —
`some` bytes to append as text, `none` when the slow path produced an
empty buffer (nothing appended). -/
def process_text_content (tokPos : Nat) (text : List Nat) : Except Error (Option (List Nat)) :=
  if ¬ text.any (fun b => b = 38 ∨ b = 13) then
    .ok (some text)
  else
    match process_text_loop tokPos text.length text [] false with
    | .error e => .error e
    | .ok buffer => .ok (if buffer.isEmpty then none else some buffer)

/-! ## Attribute value normalization (`normalize_attribute`) -/

/-- `is_normalization_required`. -/
def is_normalization_required (text : List Nat) : Bool :=
  text.any (fun c => c = 38 ∨ c = 9 ∨ c = 10 ∨ c = 13)

/-- The scanning loop of `_normalize_attribute`, with explicit fuel. -/
def normalize_attr_loop (tokPos : Nat) :
    Nat → List Nat → List Nat → Except Error (List Nat)
  | _, [], buffer => .ok buffer
  | 0, _ :: _, _ => .error .Unreachable
  | fuel + 1, s@(c :: rest), buffer =>
    if c ≠ 38 then
      normalize_attr_loop tokPos fuel rest (push_from_attr buffer c rest.head?)
    else
      match try_consume_reference s with
      | some (ch, after) =>
        normalize_attr_loop tokPos fuel after (buffer ++ utf8Encode ch)
      | none => .error (.MalformedEntityReference tokPos)

/-- `normalize_attribute`: the fast path returns the raw value unchanged;
otherwise the value is rebuilt through `push_from_attr` and reference
decoding. -/
def normalize_attribute (tokPos : Nat) (text : List Nat) : Except Error (List Nat) :=
  if is_normalization_required text then
    normalize_attr_loop tokPos text.length text []
  else
    .ok text

/-! ## Namespaces, nodes, attributes (data model)

The storage types live in the `xml/mod.rs` module, which is not under
`src/`; they are modelled from §2–§4.2 of the spec.  The namespace table
is flattened: the spec's "single global append log" (`tree_order`) is one
list of entries, an entry index standing for `NamespaceIdx`, and a
"namespace scope range" is a contiguous index span over that log. -/

/-- `Modelled from the spec:` one prefix→URI binding of the namespace
registry (optional prefix string, URI string). -/
structure NamespaceEntry where
  name : Option String
  uri : List Nat
  deriving Repr, DecidableEq

/-- `Modelled from the spec:` the append-only namespace registry
(`Namespaces` in `xml/mod.rs`), flattened to its visibility log. -/
structure Namespaces where
  entries : List NamespaceEntry
  deriving Repr, DecidableEq

/-- `Modelled from the spec:` `Namespaces::push_ns` — append a binding,
enforcing the documented 2^16 total-entry ceiling. -/
def Namespaces.push_ns (ns : Namespaces) (name : Option String) (uri : List Nat) :
    Except Error Namespaces :=
  if ns.entries.length ≥ 65536 then
    .error .NamespacesLimitReached
  else
    .ok ⟨ns.entries ++ [⟨name, uri⟩]⟩

/-- `Modelled from the spec:` `Namespaces::exists` — duplicate check
scoped to the declarations from `start` on (the current element's own
declarations). -/
def Namespaces.existsFrom (ns : Namespaces) (start : Nat) (name : Option String) : Bool :=
  (ns.entries.drop start).any (fun e => e.name = name)

/-- `Modelled from the spec:` `Namespaces::push_ref` — re-append the
binding at log position `i` by reference (a branch that declares no new
namespace reuses its parent's bindings without copying their strings; in
the flattened model the entry itself is repeated). -/
def Namespaces.push_ref (ns : Namespaces) (i : Nat) : Namespaces :=
  match ns.entries.get? i with
  | some e => ⟨ns.entries ++ [e]⟩
  | none => ns

/-- A contiguous range over the namespace log or the attribute table
(`ShortRange`). -/
structure ShortRange where
  lo : Nat
  hi : Nat
  deriving Repr, DecidableEq

/-- The index list of a `ShortRange` (`to_urange`). -/
def ShortRange.indices (r : ShortRange) : List Nat :=
  List.range' r.lo (r.hi - r.lo)

/-- A resolved qualified name (`ExpandedNameIndexed`): optional namespace
log index plus local name. -/
structure ExpandedNameIndexed where
  namespace_idx : Option Nat
  local_name : String
  deriving Repr, DecidableEq

/-- `ExpandedNameIndexed::as_expanded_name`: replace the namespace index
by the URI it denotes, for namespace-aware comparison. -/
def as_expanded_name (ns : Namespaces) (n : ExpandedNameIndexed) :
    Option (List Nat) × String :=
  (n.namespace_idx.bind (fun i => (ns.entries.get? i).map (fun e => e.uri)), n.local_name)

/-- `NodeKind`. -/
inductive NodeKind where
  | Root
  | Element (tag_name : ExpandedNameIndexed) (attrRange : ShortRange) (nsRange : ShortRange)
  | Text (content : List Nat)
  deriving Repr, DecidableEq

def NodeKind.isElement : NodeKind → Bool
  | .Element _ _ _ => true
  | _ => false

/-- `NodeData`: arena node with parent / previous-sibling / subtree-skip /
last-child links (ids are arena indices). -/
structure NodeData where
  parent : Option Nat
  prev_sibling : Option Nat
  next_subtree : Option Nat
  last_child : Option Nat
  kind : NodeKind
  deriving Repr, DecidableEq

/-- `AttributeData`: resolved name and normalized value. -/
structure AttributeData where
  name : ExpandedNameIndexed
  value : List Nat
  deriving Repr, DecidableEq

/-- `Document`: arena of nodes, flat attribute table, namespace log. -/
structure Document where
  nodes : List NodeData
  attributes : List AttributeData
  namespaces : Namespaces
  deriving Repr, DecidableEq

/-- A staged, not yet committed attribute (`TempAttributeData`); `pfx` is
the source prefix, `rangeStart` the byte offset used for error
positions. -/
structure TempAttributeData where
  pfx : String
  localName : String
  value : List Nat
  rangeStart : Nat
  deriving Repr, DecidableEq

/-- The staged tag name (`TagNameSpan`). -/
structure TagNameSpan where
  pfx : String
  name : String
  pfx_pos : Nat
  deriving Repr, DecidableEq

def TagNameSpan.new_null : TagNameSpan := ⟨"", "", 0⟩

/-- The builder state (`Context`). -/
structure Context where
  namespace_start_idx : Nat
  current_attributes : List TempAttributeData
  awaiting_subtree : List Nat
  parent_prefixes : List String
  after_text : Bool
  parent_id : Nat
  tag_name : TagNameSpan
  doc : Document
  deriving Repr, DecidableEq

/-! ## The event stream (`tokenizer::Token`)

The builder consumes these events; the lexical scanner producing them is
out of scope.  Byte ranges are reduced to their start offset (only used
for error positions), and the unused `qname_len`/`eq_len` fields are
dropped. -/

/-- `tokenizer::ElementEnd`. -/
inductive ElementEnd where
  | Open
  | Close (pfx localName : String)
  | Empty
  deriving Repr, DecidableEq

/-- `tokenizer::Token`. -/
inductive Token where
  | ElementStart (pfx localName : String) (start : Nat)
  | Attr (rangeStart : Nat) (pfx localName : String) (value : List Nat)
  | ElementEnd (endTok : ElementEnd) (rangeStart : Nat)
  | Text (text : List Nat) (rangeStart : Nat)
  deriving Repr, DecidableEq

/-! ## The tree builder -/

/-- In-place update of the node at index `i` (Rust's
`self.doc.nodes[i].field = v`; out-of-range indexing would panic in Rust
and cannot occur in reachable states). -/
def updateNode (nodes : List NodeData) (i : Nat) (f : NodeData → NodeData) : List NodeData :=
  match nodes.get? i with
  | some n => nodes.set i (f n)
  | none => nodes

/-- The `nodes.push(...)` of `Context::append_node`: the new node starts
with the current parent as parent and no other links. -/
def appendNewNode (nodes : List NodeData) (pid : Nat) (kind : NodeKind) : List NodeData :=
  nodes ++ [(⟨some pid, none, none, none, kind⟩ : NodeData)]

/-- The sibling/child linking of `Context::append_node`: the new node's
previous sibling becomes the parent's old last child, and the parent's
last child becomes the new node. -/
def lastChildOf (nodes : List NodeData) (pid : Nat) : Option Nat :=
  match nodes.get? pid with
  | some m => m.last_child
  | none => none

def linkNewNode (nodes : List NodeData) (pid newId : Nat) : List NodeData :=
  updateNode
    (updateNode nodes newId (fun n => {n with prev_sibling := lastChildOf nodes pid}))
    pid (fun n => {n with last_child := some newId})

/-- The back-patching loop of `Context::append_node`: set the skip
pointer of every staged id to the id of the node just appended. -/
def patchAwaiting (aw : List Nat) (newId : Nat) (nodes : List NodeData) : List NodeData :=
  aw.foldl (fun ns i => updateNode ns i (fun n => {n with next_subtree := some newId})) nodes

/-- `Context::append_node`: push the node, link it to its parent and
previous sibling, back-patch every id awaiting a subtree pointer with the
new id, clear the staging list, and stage the new node itself when it is
not an element.  Returns the new id. -/
def Context.append_node (ctx : Context) (kind : NodeKind) : Nat × Context :=
  let new_child_id := ctx.doc.nodes.length
  let nodes4 := patchAwaiting ctx.awaiting_subtree new_child_id
    (linkNewNode (appendNewNode ctx.doc.nodes ctx.parent_id kind)
      ctx.parent_id new_child_id)
  let awaiting := if kind.isElement then [] else [new_child_id]
  (new_child_id, {ctx with doc := {ctx.doc with nodes := nodes4}, awaiting_subtree := awaiting})

/-- `append_text`: merge into the previous text node when the last
committed node was text, otherwise append a new text node. -/
def append_text (text : List Nat) (ctx : Context) : Context :=
  if ctx.after_text then
    let nodes' := updateNode ctx.doc.nodes (ctx.doc.nodes.length - 1) (fun n =>
      match n.kind with
      | .Text prev => {n with kind := .Text (prev ++ text)}
      | _ => n)
    { ctx with doc := { ctx.doc with nodes := nodes' } }
  else
    (ctx.append_node (.Text text)).2

/-- Token-level `process_text`: compute the chunk's stored content and
append it (setting the text-merge flag) when there is any. -/
def process_text_tok (text : List Nat) (rangeStart : Nat) (ctx : Context) :
    Except Error Context :=
  match process_text_content rangeStart text with
  | .error e => .error e
  | .ok none => .ok ctx
  | .ok (some content) => .ok {append_text content ctx with after_text := true}

/-- `process_attribute`: namespace-declaring attributes are validated and
registered in the namespace table; others are staged. -/
def process_attribute (rangeStart : Nat) (pfx localName : String) (rawValue : List Nat)
    (ctx : Context) : Except Error Context :=
  match normalize_attribute rangeStart rawValue with
  | .error e => .error e
  | .ok value =>
    if pfx = XMLNS then
      if value = NS_XMLNS_URI_B then .error (.UnexpectedXmlnsUri rangeStart)
      else
        -- after the xml/xmlns URI validations both paths fall through to
        -- the duplicate check and the conditional registration
        let after_uri_checks : Unit → Except Error Context := fun _ =>
          if ctx.doc.namespaces.existsFrom ctx.namespace_start_idx (some localName) then
            .error (.DuplicatedNamespace localName rangeStart)
          else if value = NS_XML_URI_B then
            .ok ctx
          else
            match ctx.doc.namespaces.push_ns (some localName) value with
            | .error e => .error e
            | .ok ns => .ok {ctx with doc := {ctx.doc with namespaces := ns}}
        if localName = NS_XML_PFX then
          if value = NS_XML_URI_B then after_uri_checks ()
          else .error (.InvalidXmlPfxUri rangeStart)
        else
          if value = NS_XML_URI_B then .error (.UnexpectedXmlUri rangeStart)
          else after_uri_checks ()
    else if localName = XMLNS then
      if value = NS_XML_URI_B then .error (.UnexpectedXmlUri rangeStart)
      else if value = NS_XMLNS_URI_B then .error (.UnexpectedXmlnsUri rangeStart)
      else
        match ctx.doc.namespaces.push_ns none value with
        | .error e => .error e
        | .ok ns => .ok {ctx with doc := {ctx.doc with namespaces := ns}}
    else
      .ok {ctx with current_attributes :=
            ctx.current_attributes ++ [⟨pfx, localName, value, rangeStart⟩]}

/-- The inheritance loop of `Context::resolve_namespaces`: re-append, by
reference, every parent-range binding whose name is not shadowed among
the current element's own declarations. -/
def push_refs_loop (start_idx : Nat) : List Nat → Namespaces → Namespaces
  | [], ns => ns
  | i :: rest, ns =>
    let nm := match ns.entries.get? i with
      | some e => e.name
      | none => none
    let ns' := if ns.existsFrom start_idx nm then ns else ns.push_ref i
    push_refs_loop start_idx rest ns'

/-- `Context::resolve_namespaces`: compute the namespace range visible to
the element being committed. -/
def Context.resolve_namespaces (ctx : Context) : ShortRange × Context :=
  match ctx.doc.nodes.get? ctx.parent_id with
  | some node =>
    match node.kind with
    | .Element _ _ parent_ns =>
      if ctx.namespace_start_idx = ctx.doc.namespaces.entries.length then
        (parent_ns, ctx)
      else
        let ns' := push_refs_loop ctx.namespace_start_idx parent_ns.indices ctx.doc.namespaces
        (⟨ctx.namespace_start_idx, ns'.entries.length⟩,
          {ctx with doc := {ctx.doc with namespaces := ns'}})
    | _ => (⟨ctx.namespace_start_idx, ctx.doc.namespaces.entries.length⟩, ctx)
  | none => (⟨ctx.namespace_start_idx, ctx.doc.namespaces.entries.length⟩, ctx)

/-- `get_ns_idx_by_prefix`: scoped lookup; an unknown non-empty prefix is
a terminal error, an unmatched empty prefix means "no namespace". -/
def get_ns_idx_by_prefix (nsRange : ShortRange) (pfx_pos : Nat) (pfx : String)
    (ctx : Context) : Except Error (Option Nat) :=
  match nsRange.indices.find? (fun i =>
      decide ((match ctx.doc.namespaces.entries.get? i with
               | some e => e.name
               | none => none) = (if pfx = "" then none else some pfx))) with
  | some i => .ok (some i)
  | none =>
    if pfx = "" then .ok none
    else .error (.UnknownNamespace pfx pfx_pos)

/-- The per-attribute namespace resolution of `resolve_attributes`: the
`xml` prefix maps to the fixed first namespace slot, an empty prefix to no
namespace, anything else to a scoped lookup. -/
def attr_ns_idx (nsRange : ShortRange) (attr : TempAttributeData) (ctx : Context) :
    Except Error (Option Nat) :=
  if attr.pfx = NS_XML_PFX then .ok (some 0)
  else if attr.pfx = "" then .ok none
  else get_ns_idx_by_prefix nsRange attr.rangeStart attr.pfx ctx

/-- The commit loop of `resolve_attributes`: resolve each staged
attribute, reject a (namespace, local-name) collision with the attributes
already committed for this element, and push the entry. -/
def resolve_attributes_loop (nsRange : ShortRange) (start_idx : Nat) :
    List TempAttributeData → Context → Except Error Context
  | [], ctx => .ok ctx
  | attr :: rest, ctx =>
    match attr_ns_idx nsRange attr ctx with
    | .error e => .error e
    | .ok namespace_idx =>
      if (ctx.doc.attributes.drop start_idx).any (fun a =>
          decide (as_expanded_name ctx.doc.namespaces a.name =
                  as_expanded_name ctx.doc.namespaces ⟨namespace_idx, attr.localName⟩)) then
        .error (.DuplicatedAttribute attr.localName attr.rangeStart)
      else
        resolve_attributes_loop nsRange start_idx rest
          {ctx with doc := {ctx.doc with
            attributes := ctx.doc.attributes ++ [⟨⟨namespace_idx, attr.localName⟩, attr.value⟩]}}

/-- `resolve_attributes`: enforce the `u32::MAX` whole-document ceiling,
then commit the staged attributes, returning their range. -/
def resolve_attributes (nsRange : ShortRange) (ctx : Context) :
    Except Error (ShortRange × Context) :=
  if ctx.current_attributes.isEmpty then .ok (⟨0, 0⟩, ctx)
  else if ctx.doc.attributes.length + ctx.current_attributes.length ≥ 4294967295 then
    .error .AttributesLimitReached
  else
    match resolve_attributes_loop nsRange ctx.doc.attributes.length ctx.current_attributes
        {ctx with current_attributes := []} with
    | .error e => .error e
    | .ok ctx' => .ok (⟨ctx.doc.attributes.length, ctx'.doc.attributes.length⟩, ctx')

/-- `gen_qname_string`. -/
def gen_qname_string (pfx localName : String) : String :=
  if pfx = "" then localName else pfx ++ ":" ++ localName

/-- `process_element`: commit the staged element on an element-end
event. -/
def process_element (endTok : ElementEnd) (rangeStart : Nat) (ctx : Context) :
    Except Error Context :=
  if ctx.tag_name.name = "" then
    match endTok with
    | .Close _ _ => .error (.UnexpectedEntityCloseTag rangeStart)
    | _ => .error .Unreachable
  else
    let rc := ctx.resolve_namespaces
    let nsRange := rc.1
    let ctx := {rc.2 with namespace_start_idx := rc.2.doc.namespaces.entries.length}
    match resolve_attributes nsRange ctx with
    | .error e => .error e
    | .ok (attrRange, ctx) =>
      match endTok with
      | .Empty =>
        match get_ns_idx_by_prefix nsRange ctx.tag_name.pfx_pos ctx.tag_name.pfx ctx with
        | .error e => .error e
        | .ok tag_ns_idx =>
          let r := ctx.append_node (.Element ⟨tag_ns_idx, ctx.tag_name.name⟩ attrRange nsRange)
          .ok {r.2 with awaiting_subtree := r.2.awaiting_subtree ++ [r.1]}
      | .Close cpfx clocal =>
        match ctx.doc.nodes.get? ctx.parent_id, ctx.parent_prefixes.head? with
        | some parent_node, some parentPfx =>
          let check : Except Error Unit :=
            match parent_node.kind with
            | .Element tag _ _ =>
              if cpfx ≠ parentPfx ∨ clocal ≠ tag.local_name then
                .error (.UnexpectedCloseTag (gen_qname_string parentPfx tag.local_name)
                  (gen_qname_string cpfx clocal) rangeStart)
              else .ok ()
            | _ => .ok ()
          match check with
          | .error e => .error e
          | .ok _ =>
            let ctx := {ctx with awaiting_subtree := ctx.awaiting_subtree ++ [ctx.parent_id]}
            match parent_node.parent with
            | some pid =>
              .ok {ctx with parent_id := pid, parent_prefixes := ctx.parent_prefixes.tail}
            | none => .error .Unreachable
        | _, _ => .error .Unreachable
      | .Open =>
        match get_ns_idx_by_prefix nsRange ctx.tag_name.pfx_pos ctx.tag_name.pfx ctx with
        | .error e => .error e
        | .ok tag_ns_idx =>
          let r := ctx.append_node (.Element ⟨tag_ns_idx, ctx.tag_name.name⟩ attrRange nsRange)
          .ok { r.2 with
                parent_id := r.1,
                parent_prefixes := r.2.tag_name.pfx :: r.2.parent_prefixes }

/-- The event-consumer interface (`impl XmlEvents for Context`): dispatch
one token. -/
def Context.token (ctx : Context) : Token → Except Error Context
  | .ElementStart pfx localName start =>
    if pfx = XMLNS then .error (.InvalidElementNamePfx (start + 1))
    else .ok {ctx with tag_name := ⟨pfx, localName, start + 1⟩, after_text := false}
  | .Attr rangeStart pfx localName value =>
    process_attribute rangeStart pfx localName value ctx
  | .ElementEnd endTok rangeStart =>
    match process_element endTok rangeStart ctx with
    | .error e => .error e
    | .ok ctx' => .ok {ctx' with after_text := false}
  | .Text text rangeStart => process_text_tok text rangeStart ctx

/-- The builder state of `Document::parse` before any event: a root node
and the pre-registered `xml` namespace binding. -/
def initContext : Context :=
  { namespace_start_idx := 1
    current_attributes := []
    awaiting_subtree := []
    parent_prefixes := [""]
    after_text := false
    parent_id := 0
    tag_name := TagNameSpan.new_null
    doc := ⟨[⟨none, none, none, none, .Root⟩], [], ⟨[⟨some NS_XML_PFX, NS_XML_URI_B⟩]⟩⟩ }

/-- Feed the event stream to the builder (the `tokenizer::parse` call,
with the out-of-scope lexical scanner replaced by the given stream). -/
def runEvents (tokens : List Token) : Except Error Context :=
  tokens.foldlM (fun ctx t => ctx.token t) initContext

/-- `Modelled from the spec:` `doc.root().children().any(|n| n.is_element())`
— the child-iteration API lives in the out-of-`src` module; by the spec's
data model a child of the root is exactly a node whose parent link is the
root id 0. -/
def hasRootElementChild (doc : Document) : Bool :=
  doc.nodes.any (fun n => decide (n.parent = some 0 ∧ n.kind.isElement = true))

/-- Number of element children of the root, for stating how many
top-level elements a parse produced. -/
def countRootElementChildren (doc : Document) : Nat :=
  doc.nodes.countP (fun n => decide (n.parent = some 0 ∧ n.kind.isElement = true))

/-- `Document::parse` with the lexical scanner abstracted into the event
stream: run the builder, then apply the two termination checks. -/
def parseEvents (tokens : List Token) : Except Error Document :=
  match runEvents tokens with
  | .error e => .error e
  | .ok ctx =>
    if ¬ hasRootElementChild ctx.doc then .error .NoRootNode
    else if ctx.parent_prefixes.length > 1 then .error .UnclosedRootNode
    else .ok ctx.doc

/-- The document carried by a successful parse result (dummy out the
error case), for stating concrete instances. -/
def docOf (r : Except Error Document) : Document :=
  match r with
  | .ok d => d
  | .error _ => ⟨[], [], ⟨[]⟩⟩

/-- Event stream of `<a><b/><c/></a>`: inside `a`, the empty element `b`
is followed by the empty element `c`, so `b` gets a subtree-skip
pointer. -/
def c1Tokens : List Token :=
  [.ElementStart "" "a" 0, .ElementEnd .Open 2,
   .ElementStart "" "b" 3, .ElementEnd .Empty 6,
   .ElementStart "" "c" 7, .ElementEnd .Empty 10,
   .ElementEnd (.Close "" "a") 11]

/-! ## Lemmas: text and attribute normalization -/

theorem getLast?_app (l : List Nat) (a : Nat) : (l ++ [a]).getLast? = some a := by
  simp

theorem dropLast_app (l : List Nat) (a : Nat) : (l ++ [a]).dropLast = l := by
  simp

theorem nlnorm_single (c : Nat) : nlnorm [c] = [if c = 13 then 10 else c] := by
  simp [nlnorm]

theorem nlnorm_cons_cons (c d : Nat) (rest : List Nat) :
    nlnorm (c :: d :: rest) =
      if c = 13 then
        if d = 10 then 10 :: nlnorm rest else 10 :: nlnorm (d :: rest)
      else c :: nlnorm (d :: rest) := by
  simp [nlnorm]

theorem nlnorm_crfree : ∀ t : List Nat, (∀ b ∈ t, b ≠ 13) → nlnorm t = t
  | [], _ => rfl
  | [c], h => by
    have := h c (by simp)
    simp [nlnorm_single, this]
  | c :: d :: rest, h => by
    have hc : c ≠ 13 := h c (by simp)
    rw [nlnorm_cons_cons, if_neg hc,
      nlnorm_crfree (d :: rest) (fun b hb => h b (by simp at hb; simp [hb]))]

theorem nlnorm_ne_nil (c : Nat) (t : List Nat) : nlnorm (c :: t) ≠ [] := by
  match t with
  | [] => simp [nlnorm_single]
  | d :: rest =>
    rw [nlnorm_cons_cons]
    split
    · split <;> simp
    · simp

theorem push_from_text_no_cr (buffer : List Nat) (c : Nat) (at_end : Bool)
    (h : buffer.getLast? ≠ some 13) :
    push_from_text buffer c at_end =
      if at_end ∧ c = 13 then buffer ++ [10] else buffer ++ [c] := by
  simp only [push_from_text, if_neg h]

theorem push_from_text_cr (buffer : List Nat) (c : Nat) (at_end : Bool)
    (h : buffer.getLast? = some 13) :
    push_from_text buffer c at_end =
      if at_end ∧ c = 13 then buffer.dropLast ++ [10, 10]
      else if c = 10 then buffer.dropLast ++ [10]
      else buffer.dropLast ++ [10, c] := by
  simp only [push_from_text, if_pos h]
  split_ifs with h1 h2 <;> simp_all

/-- The plain-byte behaviour of the text loop: on a chunk with no `&`,
the loop computes exactly the spec's line-ending normalization.  The
second conjunct covers the intermediate states in which a pending `\r`
sits at the end of the buffer. -/
theorem text_loop_plain (p : Nat) :
    ∀ (fuel : Nat) (s buffer : List Nat), s.length ≤ fuel → (∀ b ∈ s, b ≠ 38) →
    (buffer.getLast? ≠ some 13 →
      process_text_loop p fuel s buffer false = .ok (buffer ++ nlnorm s)) ∧
    (buffer.getLast? = some 13 → s ≠ [] →
      process_text_loop p fuel s buffer false = .ok (buffer.dropLast ++ nlnorm (13 :: s))) := by
  intro fuel
  induction fuel with
  | zero =>
    intro s buffer hlen _
    have hs0 : s = [] := List.length_eq_zero.mp (Nat.le_zero.mp hlen)
    subst hs0
    exact ⟨fun _ => by simp [process_text_loop, nlnorm], fun _ hne => absurd rfl hne⟩
  | succ fuel ih =>
    intro s buffer hlen hs
    match s with
    | [] =>
      exact ⟨fun _ => by simp [process_text_loop, nlnorm], fun _ hne => absurd rfl hne⟩
    | c :: rest =>
      have hc : c ≠ 38 := hs c (by simp)
      have hrest : ∀ b ∈ rest, b ≠ 38 := fun b hb => hs b (by simp [hb])
      have hlen' : rest.length ≤ fuel := by
        simp only [List.length_cons] at hlen
        exact Nat.le_of_succ_le_succ hlen
      have hstep : process_text_loop p (fuel + 1) (c :: rest) buffer false =
          process_text_loop p fuel rest (push_from_text buffer c rest.isEmpty) false := by
        simp [process_text_loop, parse_next_chunk, hc]
      constructor
      · -- no pending carriage return in the buffer
        intro hbuf
        rw [hstep, push_from_text_no_cr _ _ _ hbuf]
        match rest with
        | [] =>
          by_cases hc13 : c = 13
          · subst hc13
            simp [process_text_loop, nlnorm_single]
          · simp [process_text_loop, nlnorm_single, hc13]
        | d :: rest' =>
          rw [if_neg (by simp)]
          by_cases hc13 : c = 13
          · subst hc13
            have h2 := (ih (d :: rest') (buffer ++ [13]) hlen' hrest).2
              (getLast?_app _ _) (by simp)
            rw [h2, dropLast_app]
          · have h1 := (ih (d :: rest') (buffer ++ [c]) hlen' hrest).1
              (by rw [getLast?_app]; simp [hc13])
            rw [h1, nlnorm_cons_cons, if_neg hc13]
            simp
      · -- a pending carriage return sits at the end of the buffer
        intro hbuf _
        rw [hstep, push_from_text_cr _ _ _ hbuf]
        by_cases hc10 : c = 10
        · subst hc10
          rw [if_neg (by simp), if_pos rfl]
          match rest with
          | [] =>
            simp [process_text_loop, nlnorm_cons_cons, nlnorm_single, nlnorm]
          | d :: rest' =>
            have h1 := (ih (d :: rest') (buffer.dropLast ++ [10]) hlen' hrest).1
              (by rw [getLast?_app]; simp)
            rw [h1, nlnorm_cons_cons]
            simp
        · match rest with
          | [] =>
            by_cases hc13 : c = 13
            · subst hc13
              rw [if_pos (by simp)]
              simp [process_text_loop, nlnorm_cons_cons, nlnorm_single]
            · rw [if_neg (by simp [hc13]), if_neg hc10]
              simp [process_text_loop, nlnorm_cons_cons, nlnorm_single, hc10, hc13]
          | d :: rest' =>
            rw [if_neg (by simp), if_neg hc10]
            by_cases hc13 : c = 13
            · subst hc13
              have h2 := (ih (d :: rest') (buffer.dropLast ++ [10, 13]) hlen' hrest).2
                (by rw [show buffer.dropLast ++ [10, 13] =
                      (buffer.dropLast ++ [10]) ++ [13] by simp, getLast?_app])
                (by simp)
              rw [h2]
              rw [show buffer.dropLast ++ [10, 13] = (buffer.dropLast ++ [10]) ++ [13] by simp,
                dropLast_app]
              rw [nlnorm_cons_cons 13 13, if_pos rfl, if_neg (by norm_num)]
              simp
            · have h1 := (ih (d :: rest') (buffer.dropLast ++ [10, c]) hlen' hrest).1
                (by rw [show buffer.dropLast ++ [10, c] =
                      (buffer.dropLast ++ [10]) ++ [c] by simp, getLast?_app]
                    simp [hc13])
              rw [h1, nlnorm_cons_cons 13 c, if_pos rfl, if_neg hc10,
                nlnorm_cons_cons c d, if_neg hc13]
              simp

theorem attnorm_single (c : Nat) : attnorm [c] = [attrSp c] := by
  simp [attnorm]

theorem attnorm_cons_cons (c d : Nat) (rest : List Nat) :
    attnorm (c :: d :: rest) =
      if c = 13 ∧ d = 10 then attnorm (d :: rest)
      else attrSp c :: attnorm (d :: rest) := by
  simp [attnorm]

theorem attnorm_clean : ∀ t : List Nat, (∀ b ∈ t, b ≠ 9 ∧ b ≠ 10 ∧ b ≠ 13) → attnorm t = t
  | [], _ => rfl
  | [c], h => by
    obtain ⟨h9, h10, h13⟩ := h c (by simp)
    simp [attnorm_single, attrSp, h9, h10, h13]
  | c :: d :: rest, h => by
    obtain ⟨h9, h10, h13⟩ := h c (by simp)
    rw [attnorm_cons_cons, if_neg (by simp [h13]),
      attnorm_clean (d :: rest) (fun b hb => h b (by simp at hb; simp [hb]))]
    simp [attrSp, h9, h10, h13]

/-- The plain-byte behaviour of the attribute loop: on a raw value with no
`&`, the loop computes exactly the spec's attribute-value normalization. -/
theorem attr_loop_plain (p : Nat) :
    ∀ (fuel : Nat) (s buffer : List Nat), s.length ≤ fuel → (∀ b ∈ s, b ≠ 38) →
    normalize_attr_loop p fuel s buffer = .ok (buffer ++ attnorm s) := by
  intro fuel
  induction fuel with
  | zero =>
    intro s buffer hlen _
    have hs0 : s = [] := List.length_eq_zero.mp (Nat.le_zero.mp hlen)
    subst hs0
    simp [normalize_attr_loop, attnorm]
  | succ fuel ih =>
    intro s buffer hlen hs
    match s with
    | [] => simp [normalize_attr_loop, attnorm]
    | c :: rest =>
      have hc : c ≠ 38 := hs c (by simp)
      have hrest : ∀ b ∈ rest, b ≠ 38 := fun b hb => hs b (by simp [hb])
      have hlen' : rest.length ≤ fuel := by
        simp only [List.length_cons] at hlen
        exact Nat.le_of_succ_le_succ hlen
      have hstep : normalize_attr_loop p (fuel + 1) (c :: rest) buffer =
          normalize_attr_loop p fuel rest (push_from_attr buffer c rest.head?) := by
        simp [normalize_attr_loop, hc]
      rw [hstep, ih rest _ hlen' hrest]
      match rest with
      | [] =>
        simp [push_from_attr, attrSp, attnorm_single, attnorm]
      | d :: rest' =>
        by_cases hpair : c = 13 ∧ d = 10
        · obtain ⟨hc13, hd10⟩ := hpair
          subst hc13
          subst hd10
          have hp : push_from_attr buffer 13 (10 :: rest').head? = buffer := by
            simp [push_from_attr]
          rw [hp, attnorm_cons_cons, if_pos ⟨rfl, rfl⟩]
        · have hp : push_from_attr buffer c (d :: rest').head? = buffer ++ [attrSp c] := by
            simp only [push_from_attr, List.head?_cons, attrSp]
            rw [if_neg (by simpa using hpair)]
          rw [hp, attnorm_cons_cons, if_neg hpair]
          simp

/-! ## Claims C5, C6, C7, C10: text and attribute normalization -/

/-- C6: for a text chunk with no `&` and no `\r` the stored text is the
chunk unchanged (fast path); in the plain-byte path (no `&`) every `\r\n`
pair and every lone `\r` — a final one included — becomes a single `\n`
(the `nlnorm` spec function); and `"l1\r\nl2\rl3"` normalizes to
`"l1\nl2\nl3"`. -/
theorem c6_text_normalization :
    (∀ (t : List Nat) (p : Nat), (∀ b ∈ t, b ≠ 38 ∧ b ≠ 13) →
        process_text_content p t = .ok (some t)) ∧
    (∀ (t : List Nat) (p : Nat), (∀ b ∈ t, b ≠ 38) →
        process_text_content p t = .ok (some (nlnorm t))) ∧
    process_text_content 0 (ascii "l1\r\nl2\rl3") = .ok (some (ascii "l1\nl2\nl3")) := by
  have main : ∀ (t : List Nat) (p : Nat), (∀ b ∈ t, b ≠ 38) →
      process_text_content p t = .ok (some (nlnorm t)) := by
    intro t p ht
    unfold process_text_content
    split
    · -- fast path: no `&`, no `\r`
      next h =>
      have hcr : ∀ b ∈ t, b ≠ 13 := by
        intro b hb hb13
        exact h (by rw [List.any_eq_true]; exact ⟨b, hb, by simp [hb13]⟩)
      rw [nlnorm_crfree t hcr]
    · -- slow path: the loop equals nlnorm
      next h =>
      have hl := (text_loop_plain p t.length t [] (le_refl _) ht).1 (by simp)
      rw [hl]
      have tne : t ≠ [] := by
        intro h0
        subst h0
        simp at h
      match t, tne with
      | c :: rest, _ =>
        have hne := nlnorm_ne_nil c rest
        simp only [List.nil_append]
        rw [if_neg (by simpa using hne)]
  refine ⟨?_, main, by decide⟩
  intro t p ht
  have := main t p (fun b hb => (ht b hb).1)
  rwa [nlnorm_crfree t (fun b hb => (ht b hb).2)] at this

theorem c6_text_normalization_witness :
    (∀ b ∈ ascii "ab", b ≠ 38 ∧ b ≠ 13) ∧
    process_text_content 0 (ascii "ab") = .ok (some (ascii "ab")) :=
  ⟨by decide, c6_text_normalization.1 (ascii "ab") 0 (by decide)⟩

/-- C7: attribute-value normalization replaces each plain tab, line feed
and carriage return by one space, except that a `\r` directly followed by
`\n` contributes nothing (the `attnorm` spec function); `"x\ty\nz"`
normalizes to `"x y z"` and the pair in `"a\r\nb"` yields one space in
total. -/
theorem c7_attr_normalization :
    (∀ (v : List Nat) (p : Nat), (∀ b ∈ v, b ≠ 38) →
        normalize_attribute p v = .ok (attnorm v)) ∧
    normalize_attribute 0 (ascii "x\ty\nz") = .ok (ascii "x y z") ∧
    normalize_attribute 0 (ascii "a\r\nb") = .ok (ascii "a b") := by
  refine ⟨?_, by decide, by decide⟩
  intro v p hv
  unfold normalize_attribute
  split
  · simpa using attr_loop_plain p v.length v [] (le_refl _) hv
  · next h =>
    have hclean : ∀ b ∈ v, b ≠ 9 ∧ b ≠ 10 ∧ b ≠ 13 := by
      intro b hb
      refine ⟨?_, ?_, ?_⟩ <;> intro hbad <;>
        exact h (by
          rw [is_normalization_required, List.any_eq_true]
          exact ⟨b, hb, by simp [hbad]⟩)
    rw [attnorm_clean v hclean]

theorem c7_attr_normalization_witness :
    (∀ b ∈ ascii "xy", b ≠ 38) ∧
    normalize_attribute 0 (ascii "xy") = .ok (attnorm (ascii "xy")) :=
  ⟨by decide, c7_attr_normalization.1 (ascii "xy") 0 (by decide)⟩

/-- C5 counterexample: text normalization is not idempotent.  The chunk
`&#13;` stores the raw byte `\r` (the decoded reference bypasses
line-ending normalization), and re-normalizing that stored content yields
`\n`, a different string. -/
theorem c5_idempotence_counterexample :
    process_text_content 0 (ascii "&#13;") = .ok (some [13]) ∧
    process_text_content 0 [13] = .ok (some [10]) ∧
    ([13] : List Nat) ≠ [10] :=
  ⟨by decide, by decide, by decide⟩

/-- C5 amended: re-normalizing the stored content of a text chunk yields
that content unchanged whenever the stored content contains no `&` and no
carriage return (a raw `\r` can survive in stored content only through a
decoded reference, and re-normalizing such content changes it). -/
theorem c5_idempotence_amended :
    ∀ (t s : List Nat) (p q : Nat), process_text_content p t = .ok (some s) →
      (∀ b ∈ s, b ≠ 38 ∧ b ≠ 13) → process_text_content q s = .ok (some s) := by
  intro t s p q _ hs
  unfold process_text_content
  rw [if_pos]
  intro hany
  rw [List.any_eq_true] at hany
  obtain ⟨b, hb, hor⟩ := hany
  rcases (by simpa using hor : b = 38 ∨ b = 13) with h | h
  · exact (hs b hb).1 h
  · exact (hs b hb).2 h

theorem c5_idempotence_amended_witness :
    process_text_content 0 (ascii "hi") = .ok (some (ascii "hi")) ∧
    (∀ b ∈ ascii "hi", b ≠ 38 ∧ b ≠ 13) ∧
    process_text_content 1 (ascii "hi") = .ok (some (ascii "hi")) :=
  ⟨by decide, by decide,
    c5_idempotence_amended (ascii "hi") (ascii "hi") 0 1 (by decide) (by decide)⟩

/-- C10: in text processing, the single plain byte right after a decoded
reference is pushed raw (bypassing line-ending normalization), so a chunk
ending in a reference followed by a final raw `\r` stores that `\r`
unchanged; in particular `a&#98;\r` stores `ab\r` (bytes
`[97, 98, 13]`). -/
theorem c10_reference_bypass :
    (∀ (p fuel b : Nat) (rest buffer : List Nat), b ≠ 38 →
        process_text_loop p (fuel + 1) (b :: rest) buffer true =
          process_text_loop p fuel rest (push_raw buffer b) false) ∧
    (∀ (p fuel : Nat) (s buffer : List Nat) (cp : Nat),
        try_consume_reference s = some (cp, [13]) → s.head? = some 38 → 2 ≤ fuel →
        process_text_loop p fuel s buffer false = .ok (buffer ++ utf8Encode cp ++ [13])) ∧
    process_text_content 0 (ascii "a&#98;\r") = .ok (some [97, 98, 13]) := by
  refine ⟨?_, ?_, by decide⟩
  · intro p fuel b rest buffer hb
    simp [process_text_loop, parse_next_chunk, hb, push_raw]
  · intro p fuel s buffer cp htc hhead hfuel
    obtain ⟨tail, rfl⟩ : ∃ tail, s = 38 :: tail := by
      match s with
      | [] => simp at hhead
      | c :: tail =>
        simp only [List.head?_cons, Option.some_inj] at hhead
        exact ⟨tail, by rw [hhead]⟩
    obtain ⟨f, rfl⟩ : ∃ f, fuel = f + 2 := ⟨fuel - 2, by omega⟩
    have h1 : process_text_loop p (f + 2) (38 :: tail) buffer false =
        process_text_loop p (f + 1) [13] (buffer ++ utf8Encode cp) true := by
      simp [process_text_loop, parse_next_chunk, htc]
    have h2 : process_text_loop p (f + 1) [13] (buffer ++ utf8Encode cp) true =
        process_text_loop p f [] (buffer ++ utf8Encode cp ++ [13]) false := by
      simp [process_text_loop, parse_next_chunk, push_raw]
    rw [h1, h2]
    simp [process_text_loop]

theorem c10_reference_bypass_witness :
    try_consume_reference (ascii "&#98;\r") = some (98, [13]) ∧
    process_text_loop 0 6 (ascii "&#98;\r") [] false =
      .ok ([] ++ utf8Encode 98 ++ [13]) :=
  ⟨by decide,
    c10_reference_bypass.2.1 0 6 (ascii "&#98;\r") [] 98 (by decide) (by decide) (by decide)⟩

/-! ## Lemmas: attribute resolution -/

theorem get_ns_idx_no_limit (nsR : ShortRange) (pos : Nat) (pfx : String) (ctx : Context) :
    get_ns_idx_by_prefix nsR pos pfx ctx ≠ .error .AttributesLimitReached := by
  unfold get_ns_idx_by_prefix
  split
  · simp
  · split <;> simp

theorem get_ns_idx_no_dupattr (nsR : ShortRange) (pos : Nat) (pfx : String) (ctx : Context)
    (n : String) (p : Nat) :
    get_ns_idx_by_prefix nsR pos pfx ctx ≠ .error (.DuplicatedAttribute n p) := by
  unfold get_ns_idx_by_prefix
  split
  · simp
  · split <;> simp

theorem attr_ns_idx_no_limit (nsR : ShortRange) (a : TempAttributeData) (ctx : Context) :
    attr_ns_idx nsR a ctx ≠ .error .AttributesLimitReached := by
  unfold attr_ns_idx
  split
  · simp
  · split
    · simp
    · exact get_ns_idx_no_limit nsR a.rangeStart a.pfx ctx

/-- The commit loop itself never raises the attributes-limit error (its
only failures are unknown-namespace and duplicated-attribute). -/
theorem resolve_attributes_loop_no_limit (nsR : ShortRange) (start : Nat) :
    ∀ (l : List TempAttributeData) (ctx : Context),
      resolve_attributes_loop nsR start l ctx ≠ .error .AttributesLimitReached := by
  intro l
  induction l with
  | nil => intro ctx; simp [resolve_attributes_loop]
  | cons a rest ih =>
    intro ctx
    unfold resolve_attributes_loop
    split
    · next e heq =>
      intro hcontra
      have : e = Error.AttributesLimitReached := by
        simpa using hcontra
      subst this
      exact attr_ns_idx_no_limit nsR a ctx heq
    · next idx heq =>
      split
      · simp
      · exact ih _

/-- The exact trigger of the attributes-limit error: some attributes are
staged and the whole-document total would reach `u32::MAX`. -/
theorem resolve_attributes_over (nsR : ShortRange) (ctx : Context)
    (h1 : ctx.current_attributes ≠ [])
    (h2 : ctx.doc.attributes.length + ctx.current_attributes.length ≥ 4294967295) :
    resolve_attributes nsR ctx = .error .AttributesLimitReached := by
  unfold resolve_attributes
  rw [if_neg (by simpa using h1), if_pos h2]

/-! ## Claim C9: attribute capacity ceiling -/

/-- A builder state with `u32::MAX` staged attributes and none committed:
the whole-document total would be exactly `2^32 - 1` entries. -/
def ctxAtLimit : Context :=
  { initContext with current_attributes := List.replicate 4294967295 ⟨"", "a", [], 0⟩ }

/-- A builder state with `2^32` staged attributes and none committed. -/
def ctxOverLimit : Context :=
  { initContext with current_attributes := List.replicate 4294967296 ⟨"", "b", [], 0⟩ }

/-- C9 counterexample: the ceiling actually enforced is `u32::MAX`
(`2^32 - 1`), not `2^32`: an element whose staged attributes bring the
whole-document total to exactly `2^32 - 1` entries — which stays within
`2^32` — already fails with the attributes-limit error. -/
theorem c9_attr_limit_counterexample :
    resolve_attributes ⟨0, 0⟩ ctxAtLimit = .error .AttributesLimitReached ∧
    ctxAtLimit.doc.attributes.length + ctxAtLimit.current_attributes.length ≤ 2 ^ 32 := by
  have hne : ctxAtLimit.current_attributes ≠ [] := by
    rw [show ctxAtLimit.current_attributes =
        List.replicate 4294967295 ⟨"", "a", [], 0⟩ from rfl,
      Ne, List.replicate_eq_nil_iff]
    decide
  have hlen : ctxAtLimit.current_attributes.length = 4294967295 :=
    List.length_replicate 4294967295 _
  have hlen0 : ctxAtLimit.doc.attributes.length = 0 := rfl
  refine ⟨resolve_attributes_over ⟨0, 0⟩ ctxAtLimit hne ?_, ?_⟩
  · rw [hlen, hlen0]
  · rw [hlen, hlen0]
    norm_num

/-- C9 amended: resolving attributes fails with the attributes-limit
error exactly when the element has at least one staged attribute and the
total number of attribute entries across the whole document would reach
or exceed `2^32 - 1` (`u32::MAX`); below that threshold the
attributes-limit error is never raised (though other errors can be). -/
theorem c9_attr_limit_amended (nsR : ShortRange) (ctx : Context) :
    resolve_attributes nsR ctx = .error .AttributesLimitReached ↔
      (ctx.current_attributes ≠ [] ∧
        ctx.doc.attributes.length + ctx.current_attributes.length ≥ 4294967295) := by
  constructor
  · intro h
    unfold resolve_attributes at h
    by_cases he : ctx.current_attributes.isEmpty
    · rw [if_pos he] at h
      exact absurd h (by simp)
    · rw [if_neg he] at h
      by_cases hc : ctx.doc.attributes.length + ctx.current_attributes.length ≥ 4294967295
      · exact ⟨by simpa using he, hc⟩
      · rw [if_neg hc] at h
        split at h
        · next e heq =>
          have he2 : e = Error.AttributesLimitReached := by simpa using h
          subst he2
          exact absurd heq (resolve_attributes_loop_no_limit nsR _ _ _)
        · simp at h
  · rintro ⟨h1, h2⟩
    exact resolve_attributes_over nsR ctx h1 h2

theorem c9_attr_limit_amended_witness :
    resolve_attributes ⟨1, 1⟩ ctxOverLimit = .error .AttributesLimitReached := by
  have hne : ctxOverLimit.current_attributes ≠ [] := by
    rw [show ctxOverLimit.current_attributes =
        List.replicate 4294967296 ⟨"", "b", [], 0⟩ from rfl,
      Ne, List.replicate_eq_nil_iff]
    decide
  have hlen : ctxOverLimit.current_attributes.length = 4294967296 :=
    List.length_replicate 4294967296 _
  have hlen0 : ctxOverLimit.doc.attributes.length = 0 := rfl
  exact (c9_attr_limit_amended ⟨1, 1⟩ ctxOverLimit).mpr
    ⟨hne, by rw [hlen, hlen0]; norm_num⟩

/-! ## Claim C4: duplicate namespace declarations -/

/-- C4 amended: the duplicate check covers only prefixed declarations
(`xmlns:p`): if, after the URI validations pass, the prefix being declared
already appears among this element's own recorded declarations, parsing
fails with the duplicated-namespace error.  (A default-namespace
declaration — local name `xmlns` — is registered without any duplicate
check, and the `xml` prefix bound to its fixed URI is never recorded, so
its redeclaration is not caught either.) -/
theorem c4_duplicate_ns_amended :
    ∀ (ctx : Context) (rs : Nat) (localName : String) (rawValue v : List Nat),
      normalize_attribute rs rawValue = .ok v →
      v ≠ NS_XMLNS_URI_B →
      (localName = NS_XML_PFX → v = NS_XML_URI_B) →
      (localName ≠ NS_XML_PFX → v ≠ NS_XML_URI_B) →
      ctx.doc.namespaces.existsFrom ctx.namespace_start_idx (some localName) = true →
      process_attribute rs XMLNS localName rawValue ctx =
        .error (.DuplicatedNamespace localName rs) := by
  intro ctx rs localName rawValue v hnorm hxmlns hxml1 hxml2 hex
  unfold process_attribute
  rw [hnorm]
  simp only [if_pos rfl]
  rw [if_neg hxmlns]
  by_cases hl : localName = NS_XML_PFX
  · rw [if_pos hl, if_pos (hxml1 hl)]
    simp [hex]
  · rw [if_neg hl, if_neg (hxml2 hl)]
    simp [hex]

/-- A context in which the prefix `p` is already declared on the current
element (one recorded declaration past `namespace_start_idx = 1`). -/
def ctxWithP : Context :=
  { initContext with doc := { initContext.doc with namespaces :=
      ⟨[⟨some NS_XML_PFX, NS_XML_URI_B⟩, ⟨some "p", ascii "u"⟩]⟩ } }

theorem c4_duplicate_ns_amended_witness :
    process_attribute 5 XMLNS "p" (ascii "w") ctxWithP =
      .error (.DuplicatedNamespace "p" 5) :=
  c4_duplicate_ns_amended ctxWithP 5 "p" (ascii "w") (ascii "w")
    (by decide) (by decide) (by decide) (by decide) (by decide)

/-- C4 counterexample: a second default-namespace declaration on the same
element is not rejected: parsing `<e xmlns='a' xmlns='b'/>` succeeds, and
both default bindings end up registered (the namespace log holds the
fixed xml binding plus two unnamed entries). -/
theorem c4_duplicate_ns_counterexample :
    (parseEvents [.ElementStart "" "e" 0, .Attr 3 "" "xmlns" (ascii "a"),
        .Attr 13 "" "xmlns" (ascii "b"), .ElementEnd .Empty 23]).map
      (fun d => d.namespaces.entries.map (fun e => e.name)) =
    .ok [some NS_XML_PFX, none, none] := by
  decide

/-! ## Claim C2: namespace-aware duplicate attributes -/

/-- The per-attribute namespace resolution reads the builder state only
through its namespace log. -/
theorem attr_ns_idx_congr (nsR : ShortRange) (a : TempAttributeData) {ctx ctx' : Context}
    (h : ctx.doc.namespaces = ctx'.doc.namespaces) :
    attr_ns_idx nsR a ctx = attr_ns_idx nsR a ctx' := by
  unfold attr_ns_idx get_ns_idx_by_prefix
  rw [h]

/-- Committing exactly two staged attributes that resolve to the same
expanded name fails with the duplicated-attribute error on the second
one. -/
theorem resolve_attributes_loop_two (nsR : ShortRange) (A : Nat)
    (a1 a2 : TempAttributeData) (i1 i2 : Option Nat) (ctx0 : Context)
    (hA : A = ctx0.doc.attributes.length)
    (h1 : attr_ns_idx nsR a1 ctx0 = .ok i1)
    (h2 : ∀ l, attr_ns_idx nsR a2
        {ctx0 with doc := {ctx0.doc with attributes := l}} = .ok i2)
    (heq : as_expanded_name ctx0.doc.namespaces ⟨i1, a1.localName⟩ =
           as_expanded_name ctx0.doc.namespaces ⟨i2, a2.localName⟩) :
    resolve_attributes_loop nsR A [a1, a2] ctx0 =
      .error (.DuplicatedAttribute a2.localName a2.rangeStart) := by
  subst hA
  rw [resolve_attributes_loop]
  simp only [h1]
  rw [if_neg (by rw [List.drop_length]; simp)]
  rw [resolve_attributes_loop]
  simp only [h2]
  simp [List.drop_left, heq]

/-- C2: duplicate-attribute detection is namespace-aware: two staged
attributes whose resolved (namespace, local-name) pairs coincide make the
commit fail with the duplicated-attribute error (on the second one), and
`<e xmlns:n1='u' xmlns:n2='u' n1:a='1' n2:a='2'/>` fails with a
duplicated-attribute error — not a duplicated-namespace one — although
the source prefixes differ. -/
theorem c2_duplicate_attribute :
    parseEvents [.ElementStart "" "e" 0, .Attr 3 "xmlns" "n1" (ascii "u"),
        .Attr 17 "xmlns" "n2" (ascii "u"), .Attr 31 "n1" "a" (ascii "1"),
        .Attr 38 "n2" "a" (ascii "2"), .ElementEnd .Empty 45] =
      .error (.DuplicatedAttribute "a" 38) ∧
    (∀ (nsR : ShortRange) (ctx : Context) (a1 a2 : TempAttributeData) (i1 i2 : Option Nat),
      ctx.current_attributes = [a1, a2] →
      ctx.doc.attributes.length + 2 < 4294967295 →
      attr_ns_idx nsR a1 ctx = .ok i1 →
      attr_ns_idx nsR a2 ctx = .ok i2 →
      as_expanded_name ctx.doc.namespaces ⟨i1, a1.localName⟩ =
        as_expanded_name ctx.doc.namespaces ⟨i2, a2.localName⟩ →
      resolve_attributes nsR ctx =
        .error (.DuplicatedAttribute a2.localName a2.rangeStart)) := by
  refine ⟨by decide, ?_⟩
  intro nsR ctx a1 a2 i1 i2 hcur hlim h1 h2 heq
  have hlen2 : ctx.current_attributes.length = 2 := by rw [hcur]; rfl
  unfold resolve_attributes
  rw [if_neg (by rw [hcur]; simp), if_neg (by rw [hlen2]; omega), hcur]
  have hloop := resolve_attributes_loop_two nsR ctx.doc.attributes.length a1 a2 i1 i2
    {ctx with current_attributes := []} rfl
    ((attr_ns_idx_congr nsR a1 rfl).trans h1)
    (fun l => (attr_ns_idx_congr nsR a2 rfl).trans h2)
    heq
  rw [hloop]

theorem c2_duplicate_attribute_witness :
    attr_ns_idx ⟨1, 2⟩ ⟨"p", "a", ascii "1", 31⟩ ctxWithP = .ok (some 1) ∧
    attr_ns_idx ⟨1, 2⟩ ⟨"p", "a", ascii "2", 38⟩ ctxWithP = .ok (some 1) ∧
    resolve_attributes ⟨1, 2⟩
        { ctxWithP with current_attributes :=
            [⟨"p", "a", ascii "1", 31⟩, ⟨"p", "a", ascii "2", 38⟩] } =
      .error (.DuplicatedAttribute "a" 38) :=
  ⟨by decide, by decide,
    c2_duplicate_attribute.2 ⟨1, 2⟩ _ ⟨"p", "a", ascii "1", 31⟩ ⟨"p", "a", ascii "2", 38⟩
      (some 1) (some 1) rfl (by decide) (by decide) (by decide) (by decide)⟩

/-! ## Claim C8: mismatched close tags -/

/-- `Context::resolve_namespaces` changes nothing but the namespace
log. -/
theorem resolve_namespaces_frame {ctx ctx1 : Context} {nsR : ShortRange}
    (h : ctx.resolve_namespaces = (nsR, ctx1)) :
    ctx1.doc.nodes = ctx.doc.nodes ∧ ctx1.doc.attributes = ctx.doc.attributes ∧
    ctx1.current_attributes = ctx.current_attributes ∧
    ctx1.awaiting_subtree = ctx.awaiting_subtree ∧
    ctx1.parent_id = ctx.parent_id ∧
    ctx1.parent_prefixes = ctx.parent_prefixes ∧
    ctx1.after_text = ctx.after_text ∧
    ctx1.tag_name = ctx.tag_name := by
  unfold Context.resolve_namespaces at h
  repeat' split at h
  all_goals
    injection h with h1 h2
  all_goals
    subst h2
  all_goals
    exact ⟨rfl, rfl, rfl, rfl, rfl, rfl, rfl, rfl⟩

/-- `resolve_attributes` with nothing staged commits nothing. -/
theorem resolve_attributes_empty (nsR : ShortRange) (ctx : Context)
    (h : ctx.current_attributes = []) :
    resolve_attributes nsR ctx = .ok (⟨0, 0⟩, ctx) := by
  unfold resolve_attributes
  rw [if_pos (by rw [h]; rfl)]

/-- C8: a `Close(prefix, local)` event whose qualified name differs from
that of the innermost open element fails with the mismatched-close-tag
error carrying both the expected and the actual qualified name; in
particular `<a><b></a>` fails naming expected `b` and actual `a`. -/
theorem c8_mismatched_close :
    (∀ (ctx : Context) (cpfx clocal : String) (rs : Nat) (pn : NodeData)
        (tag : ExpandedNameIndexed) (ar nr : ShortRange) (pp : String),
      ctx.tag_name.name ≠ "" →
      ctx.current_attributes = [] →
      ctx.doc.nodes.get? ctx.parent_id = some pn →
      pn.kind = .Element tag ar nr →
      ctx.parent_prefixes.head? = some pp →
      (cpfx ≠ pp ∨ clocal ≠ tag.local_name) →
      process_element (.Close cpfx clocal) rs ctx =
        .error (.UnexpectedCloseTag (gen_qname_string pp tag.local_name)
          (gen_qname_string cpfx clocal) rs)) ∧
    parseEvents [.ElementStart "" "a" 0, .ElementEnd .Open 2,
        .ElementStart "" "b" 4, .ElementEnd .Open 6,
        .ElementEnd (.Close "" "a") 8] =
      .error (.UnexpectedCloseTag "b" "a" 8) := by
  refine ⟨?_, by decide⟩
  intro ctx cpfx clocal rs pn tag ar nr pp htag hca hget hkind hhead hmis
  rcases hrn : ctx.resolve_namespaces with ⟨nsR1, ctx1⟩
  obtain ⟨hnodes, _, hcur1, _, hpid, hpfx, _, _⟩ := resolve_namespaces_frame hrn
  have hre := resolve_attributes_empty nsR1
    {ctx1 with namespace_start_idx := ctx1.doc.namespaces.entries.length}
    (hcur1.trans hca)
  unfold process_element
  rw [if_neg htag]
  simp only [hrn]
  simp only [hre]
  simp only [hnodes, hpid, hpfx]
  simp only [hget, hhead, hkind]
  rw [if_pos hmis]

/-- The builder state right after processing `<a>` (element `a` open and
current parent). -/
def afterOpenA : Context :=
  { namespace_start_idx := 1
    current_attributes := []
    awaiting_subtree := []
    parent_prefixes := ["", ""]
    after_text := false
    parent_id := 1
    tag_name := ⟨"", "a", 1⟩
    doc := ⟨[⟨none, none, none, some 1, .Root⟩,
             ⟨some 0, none, none, none, .Element ⟨none, "a"⟩ ⟨0, 0⟩ ⟨1, 1⟩⟩], [],
            ⟨[⟨some NS_XML_PFX, NS_XML_URI_B⟩]⟩⟩ }

theorem c8_mismatched_close_witness :
    process_element (.Close "" "x") 8 afterOpenA =
      .error (.UnexpectedCloseTag "a" "x" 8) :=
  c8_mismatched_close.1 afterOpenA "" "x" 8
    ⟨some 0, none, none, none, .Element ⟨none, "a"⟩ ⟨0, 0⟩ ⟨1, 1⟩⟩
    ⟨none, "a"⟩ ⟨0, 0⟩ ⟨1, 1⟩ ""
    (by decide) (by decide) (by decide) (by decide) (by decide) (by decide)

/-! ## Claim C3: termination checks -/

/-- C3 counterexample: the after-stream check requires *at least* one —
not exactly one — real top-level element: a stream producing two
top-level elements parses successfully (with two element children of the
root), where the claim demands a no-root-node failure. -/
theorem c3_termination_counterexample :
    (parseEvents [.ElementStart "" "e" 0, .ElementEnd .Empty 2,
        .ElementStart "" "f" 4, .ElementEnd .Empty 6]).map countRootElementChildren =
      .ok 2 := by
  decide

/-- C3 amended: after the event stream ends, parsing fails with the
no-root-node error exactly when the root has no element child (at least
one real top-level element is required, not exactly one); it fails with
the root-never-closed error exactly when a root element exists but the
open-element stack is deeper than the implicit root level; it succeeds
otherwise; and a document producing no events (such as
`<?xml version="1.0"?>`) fails with the no-root-node error. -/
theorem c3_termination_amended :
    (∀ (tokens : List Token) (ctx : Context), runEvents tokens = .ok ctx →
      (parseEvents tokens = .error .NoRootNode ↔ ¬ hasRootElementChild ctx.doc) ∧
      (parseEvents tokens = .error .UnclosedRootNode ↔
        (hasRootElementChild ctx.doc ∧ ctx.parent_prefixes.length > 1)) ∧
      (parseEvents tokens = .ok ctx.doc ↔
        (hasRootElementChild ctx.doc ∧ ctx.parent_prefixes.length ≤ 1))) ∧
    parseEvents [] = .error .NoRootNode := by
  constructor
  · intro tokens ctx h
    unfold parseEvents
    simp only [h]
    by_cases hroot : hasRootElementChild ctx.doc
    · rw [if_neg (by simpa using hroot)]
      by_cases hlen : ctx.parent_prefixes.length > 1
      · rw [if_pos hlen]
        refine ⟨by simp [hroot], by simp [hroot, hlen], ?_⟩
        constructor
        · intro hcontra
          exact absurd hcontra (by simp)
        · rintro ⟨-, hle⟩
          omega
      · rw [if_neg hlen]
        refine ⟨by simp [hroot], by simp [hroot]; omega, ?_⟩
        constructor
        · intro _
          exact ⟨hroot, by omega⟩
        · intro _
          rfl
    · rw [if_pos (by simpa using hroot)]
      refine ⟨by simp [hroot], by simp [hroot], ?_⟩
      constructor
      · intro hcontra
        exact absurd hcontra (by simp)
      · rintro ⟨hr, -⟩
        exact absurd hr hroot
  · decide

/-- The builder state after processing `<e/>`. -/
def afterEmptyE : Context :=
  { namespace_start_idx := 1
    current_attributes := []
    awaiting_subtree := [1]
    parent_prefixes := [""]
    after_text := false
    parent_id := 0
    tag_name := ⟨"", "e", 1⟩
    doc := ⟨[⟨none, none, none, some 1, .Root⟩,
             ⟨some 0, none, none, none, .Element ⟨none, "e"⟩ ⟨0, 0⟩ ⟨1, 1⟩⟩], [],
            ⟨[⟨some NS_XML_PFX, NS_XML_URI_B⟩]⟩⟩ }

theorem c3_termination_amended_witness :
    runEvents [Token.ElementStart "" "e" 0, Token.ElementEnd .Empty 2] = .ok afterEmptyE ∧
    (parseEvents [Token.ElementStart "" "e" 0, Token.ElementEnd .Empty 2] =
        .ok afterEmptyE.doc ↔
      (hasRootElementChild afterEmptyE.doc ∧ afterEmptyE.parent_prefixes.length ≤ 1)) :=
  ⟨by decide,
    (c3_termination_amended.1 [Token.ElementStart "" "e" 0, Token.ElementEnd .Empty 2]
      afterEmptyE (by decide)).2.2⟩

/-! ## Claim C1: subtree-skip pointers

The ancestor relation along the parent links defines each node's
subtree; the builder invariant below tracks, through every event, that
patched skip pointers point just past their node's subtree and that
staged ("awaiting subtree") nodes own the current tail of the arena. -/

/-- Parent link of node `k` in an arena. -/
def parentOf (nodes : List NodeData) (k : Nat) : Option Nat :=
  match nodes.get? k with
  | some n => n.parent
  | none => none

/-- Subtree-skip link of node `k` in an arena. -/
def nextSubtreeOf (nodes : List NodeData) (k : Nat) : Option Nat :=
  match nodes.get? k with
  | some n => n.next_subtree
  | none => none

/-- `IsAnc nodes n k`: `n` is `k` itself or an ancestor of `k` along the
parent links — that is, `k` belongs to the subtree of `n`. -/
inductive IsAnc (nodes : List NodeData) : Nat → Nat → Prop where
  | refl (k : Nat) : IsAnc nodes k k
  | step {n p k : Nat} : IsAnc nodes n p → parentOf nodes k = some p → IsAnc nodes n k

theorem IsAnc.le {nodes : List NodeData}
    (hmono : ∀ j p, parentOf nodes j = some p → p < j) :
    ∀ {n k : Nat}, IsAnc nodes n k → n ≤ k := by
  intro n k h
  induction h with
  | refl => exact le_refl n
  | step hanc hpar ih => exact le_trans ih (le_of_lt (hmono _ _ hpar))

theorem IsAnc.congr {nodes nodes' : List NodeData}
    (hp : ∀ j, parentOf nodes' j = parentOf nodes j) :
    ∀ {n k : Nat}, IsAnc nodes n k → IsAnc nodes' n k := by
  intro n k h
  induction h with
  | refl => exact .refl n
  | step hanc hpar ih => exact .step ih ((hp _).trans hpar)

theorem IsAnc.trans {nodes : List NodeData} :
    ∀ {a b c : Nat}, IsAnc nodes a b → IsAnc nodes b c → IsAnc nodes a c := by
  intro a b c hab hbc
  induction hbc with
  | refl => exact hab
  | step hanc hpar ih => exact .step ih hpar

theorem IsAnc.up {nodes : List NodeData} {p pp : Nat}
    (hpar : parentOf nodes p = some pp) :
    ∀ {k : Nat}, IsAnc nodes p k → IsAnc nodes pp k := by
  intro k h
  induction h with
  | refl => exact .step (.refl pp) hpar
  | step hanc hpar2 ih => exact .step ih hpar2

theorem IsAnc.inv {nodes : List NodeData} {n k : Nat} (h : IsAnc nodes n k) :
    n = k ∨ ∃ q, parentOf nodes k = some q ∧ IsAnc nodes n q := by
  cases h with
  | refl => exact Or.inl rfl
  | step hanc hpar => exact Or.inr ⟨_, hpar, hanc⟩

theorem parentOf_oob {nodes : List NodeData} {k : Nat} (h : nodes.length ≤ k) :
    parentOf nodes k = none := by
  unfold parentOf
  rw [List.get?_eq_none.mpr h]

theorem nextSubtreeOf_oob {nodes : List NodeData} {k : Nat} (h : nodes.length ≤ k) :
    nextSubtreeOf nodes k = none := by
  unfold nextSubtreeOf
  rw [List.get?_eq_none.mpr h]

theorem parentOf_some_lt {nodes : List NodeData} {k p : Nat}
    (h : parentOf nodes k = some p) : k < nodes.length := by
  by_contra hk
  rw [parentOf_oob (le_of_not_lt hk)] at h
  exact absurd h (by simp)

theorem nextSubtreeOf_some_lt {nodes : List NodeData} {k p : Nat}
    (h : nextSubtreeOf nodes k = some p) : k < nodes.length := by
  by_contra hk
  rw [nextSubtreeOf_oob (le_of_not_lt hk)] at h
  exact absurd h (by simp)

/-- An ancestor relation ending beyond the arena is trivial. -/
theorem IsAnc.oob {nodes : List NodeData} {n k : Nat}
    (hk : nodes.length ≤ k) (h : IsAnc nodes n k) : n = k := by
  cases h.inv with
  | inl h => exact h
  | inr h =>
    obtain ⟨q, hq, _⟩ := h
    rw [parentOf_oob hk] at hq
    exact absurd hq (by simp)

theorem updateNode_length (nodes : List NodeData) (i : Nat) (f : NodeData → NodeData) :
    (updateNode nodes i f).length = nodes.length := by
  unfold updateNode
  split
  · rw [List.length_set]
  · rfl

theorem updateNode_get? (nodes : List NodeData) (i : Nat) (f : NodeData → NodeData) (k : Nat) :
    (updateNode nodes i f).get? k =
      if k = i then (nodes.get? k).map f else nodes.get? k := by
  unfold updateNode
  split
  · next n hn =>
    by_cases hk : k = i
    · subst hk
      rw [if_pos rfl, hn, List.get?_set_eq_of_lt]
      · rfl
      · exact (List.get?_eq_some.mp hn).1
    · rw [if_neg hk, List.get?_set_ne _ _ (fun h => hk h.symm)]
  · next hn =>
    by_cases hk : k = i
    · subst hk
      rw [if_pos rfl, hn]
      rfl
    · rw [if_neg hk]

theorem updateNode_parentOf (nodes : List NodeData) (i : Nat) (f : NodeData → NodeData)
    (hf : ∀ n, (f n).parent = n.parent) (k : Nat) :
    parentOf (updateNode nodes i f) k = parentOf nodes k := by
  unfold parentOf
  rw [updateNode_get?]
  by_cases hk : k = i
  · rw [if_pos hk]
    cases nodes.get? k with
    | none => rfl
    | some n => simp [hf]
  · rw [if_neg hk]

theorem updateNode_nextSubtreeOf (nodes : List NodeData) (i : Nat) (f : NodeData → NodeData)
    (hf : ∀ n, (f n).next_subtree = n.next_subtree) (k : Nat) :
    nextSubtreeOf (updateNode nodes i f) k = nextSubtreeOf nodes k := by
  unfold nextSubtreeOf
  rw [updateNode_get?]
  by_cases hk : k = i
  · rw [if_pos hk]
    cases nodes.get? k with
    | none => rfl
    | some n => simp [hf]
  · rw [if_neg hk]

theorem updateNode_nextSubtreeOf_set (nodes : List NodeData) (i newId : Nat) (k : Nat) :
    nextSubtreeOf (updateNode nodes i (fun n => {n with next_subtree := some newId})) k =
      if k = i ∧ k < nodes.length then some newId else nextSubtreeOf nodes k := by
  unfold nextSubtreeOf
  rw [updateNode_get?]
  by_cases hk : k = i
  · subst hk
    by_cases hlt : k < nodes.length
    · rw [if_pos rfl, if_pos ⟨rfl, hlt⟩, List.get?_eq_get hlt]
      rfl
    · rw [if_pos rfl, if_neg (by simp [hlt]),
        List.get?_eq_none.mpr (le_of_not_lt hlt)]
      rfl
  · rw [if_neg hk, if_neg (by simp [hk])]

/-- The back-patch fold of `append_node`: every staged id inside the
arena gets its skip pointer set to `newId`; everything else is
untouched. -/
theorem patchAwaiting_spec (newId : Nat) :
    ∀ (aw : List Nat) (nodes : List NodeData),
      ((patchAwaiting aw newId nodes).length = nodes.length) ∧
      (∀ k, parentOf (patchAwaiting aw newId nodes) k = parentOf nodes k) ∧
      (∀ k, nextSubtreeOf (patchAwaiting aw newId nodes) k =
        if k ∈ aw ∧ k < nodes.length then some newId else nextSubtreeOf nodes k) := by
  intro aw
  induction aw with
  | nil =>
    intro nodes
    refine ⟨rfl, fun k => rfl, fun k => ?_⟩
    rw [if_neg (by simp)]
    rfl
  | cons i rest ih =>
    intro nodes
    have hfold : patchAwaiting (i :: rest) newId nodes =
        patchAwaiting rest newId
          (updateNode nodes i (fun n => {n with next_subtree := some newId})) := by
      unfold patchAwaiting
      rw [List.foldl_cons]
    rw [hfold]
    obtain ⟨ihlen, ihpar, ihnext⟩ := ih (updateNode nodes i
      (fun n => {n with next_subtree := some newId}))
    refine ⟨ihlen.trans (updateNode_length _ _ _), ?_, ?_⟩
    · intro k
      rw [ihpar k, updateNode_parentOf]
      intro n
      rfl
    · intro k
      rw [ihnext k, updateNode_length, updateNode_nextSubtreeOf_set]
      by_cases hmem : k ∈ rest ∧ k < nodes.length
      · rw [if_pos hmem, if_pos ⟨by simp [hmem.1], hmem.2⟩]
      · rw [if_neg hmem]
        by_cases hi : k = i ∧ k < nodes.length
        · rw [if_pos hi, if_pos ⟨by simp [hi.1], hi.2⟩]
        · rw [if_neg hi, if_neg]
          intro hcontra
          rcases hcontra with ⟨hin, hlt⟩
          rcases List.mem_cons.mp hin with h | h
          · exact hi ⟨h, hlt⟩
          · exact hmem ⟨h, hlt⟩

theorem parentOf_append (nodes : List NodeData) (x : NodeData) (k : Nat) :
    parentOf (nodes ++ [x]) k =
      if k = nodes.length then x.parent else parentOf nodes k := by
  unfold parentOf
  by_cases hk : k = nodes.length
  · subst hk
    rw [if_pos rfl, List.get?_concat_length]
  · rw [if_neg hk]
    rcases Nat.lt_or_ge k nodes.length with hlt | hge
    · rw [List.get?_append hlt]
    · have hgt : nodes.length < k := lt_of_le_of_ne hge (fun h => hk h.symm)
      rw [List.get?_eq_none.mpr (by simp [List.length_append]; omega),
        List.get?_eq_none.mpr (by omega)]

theorem nextSubtreeOf_append (nodes : List NodeData) (x : NodeData) (k : Nat) :
    nextSubtreeOf (nodes ++ [x]) k =
      if k = nodes.length then x.next_subtree else nextSubtreeOf nodes k := by
  unfold nextSubtreeOf
  by_cases hk : k = nodes.length
  · subst hk
    rw [if_pos rfl, List.get?_concat_length]
  · rw [if_neg hk]
    rcases Nat.lt_or_ge k nodes.length with hlt | hge
    · rw [List.get?_append hlt]
    · have hgt : nodes.length < k := lt_of_le_of_ne hge (fun h => hk h.symm)
      rw [List.get?_eq_none.mpr (by simp [List.length_append]; omega),
        List.get?_eq_none.mpr (by omega)]

theorem appendNewNode_length (nodes : List NodeData) (pid : Nat) (kind : NodeKind) :
    (appendNewNode nodes pid kind).length = nodes.length + 1 := by
  unfold appendNewNode
  rw [List.length_append]
  rfl

theorem appendNewNode_parentOf (nodes : List NodeData) (pid : Nat) (kind : NodeKind) (k : Nat) :
    parentOf (appendNewNode nodes pid kind) k =
      if k = nodes.length then some pid else parentOf nodes k := by
  unfold appendNewNode
  rw [parentOf_append]

theorem appendNewNode_nextSubtreeOf (nodes : List NodeData) (pid : Nat) (kind : NodeKind)
    (k : Nat) :
    nextSubtreeOf (appendNewNode nodes pid kind) k =
      if k = nodes.length then none else nextSubtreeOf nodes k := by
  unfold appendNewNode
  rw [nextSubtreeOf_append]

theorem linkNewNode_length (nodes : List NodeData) (pid newId : Nat) :
    (linkNewNode nodes pid newId).length = nodes.length := by
  unfold linkNewNode
  rw [updateNode_length, updateNode_length]

theorem linkNewNode_parentOf (nodes : List NodeData) (pid newId : Nat) (k : Nat) :
    parentOf (linkNewNode nodes pid newId) k = parentOf nodes k := by
  unfold linkNewNode
  rw [updateNode_parentOf _ pid (fun n => {n with last_child := some newId}) (fun n => rfl),
    updateNode_parentOf _ newId
      (fun n => {n with prev_sibling := lastChildOf nodes pid}) (fun n => rfl)]

theorem linkNewNode_nextSubtreeOf (nodes : List NodeData) (pid newId : Nat) (k : Nat) :
    nextSubtreeOf (linkNewNode nodes pid newId) k = nextSubtreeOf nodes k := by
  unfold linkNewNode
  rw [updateNode_nextSubtreeOf _ pid (fun n => {n with last_child := some newId}) (fun n => rfl),
    updateNode_nextSubtreeOf _ newId
      (fun n => {n with prev_sibling := lastChildOf nodes pid}) (fun n => rfl)]

/-- What `Context::append_node` does to the builder state: the new node's
id is the old arena size `N`; parents are unchanged except the new node's,
which is the current parent; skip pointers of exactly the staged ids are
set to `N`; and the staging list is cleared, holding the new node alone
when it is not an element. -/
theorem append_node_spec (ctx : Context) (kind : NodeKind)
    (haw : ∀ j ∈ ctx.awaiting_subtree, j < ctx.doc.nodes.length) :
    (ctx.append_node kind).1 = ctx.doc.nodes.length ∧
    (ctx.append_node kind).2.doc.nodes.length = ctx.doc.nodes.length + 1 ∧
    (∀ k, parentOf (ctx.append_node kind).2.doc.nodes k =
      if k = ctx.doc.nodes.length then some ctx.parent_id else parentOf ctx.doc.nodes k) ∧
    (∀ k, nextSubtreeOf (ctx.append_node kind).2.doc.nodes k =
      if k ∈ ctx.awaiting_subtree then some ctx.doc.nodes.length
      else nextSubtreeOf ctx.doc.nodes k) ∧
    (ctx.append_node kind).2.awaiting_subtree =
      (if kind.isElement then [] else [ctx.doc.nodes.length]) ∧
    (ctx.append_node kind).2.parent_id = ctx.parent_id ∧
    (ctx.append_node kind).2.parent_prefixes = ctx.parent_prefixes ∧
    (ctx.append_node kind).2.doc.attributes = ctx.doc.attributes ∧
    (ctx.append_node kind).2.doc.namespaces = ctx.doc.namespaces ∧
    (ctx.append_node kind).2.current_attributes = ctx.current_attributes := by
  have hrepr : (ctx.append_node kind).2.doc.nodes =
      patchAwaiting ctx.awaiting_subtree ctx.doc.nodes.length
        (linkNewNode (appendNewNode ctx.doc.nodes ctx.parent_id kind)
          ctx.parent_id ctx.doc.nodes.length) := rfl
  obtain ⟨plen, ppar, pnext⟩ := patchAwaiting_spec ctx.doc.nodes.length ctx.awaiting_subtree
    (linkNewNode (appendNewNode ctx.doc.nodes ctx.parent_id kind)
      ctx.parent_id ctx.doc.nodes.length)
  have hlen2 : (linkNewNode (appendNewNode ctx.doc.nodes ctx.parent_id kind)
      ctx.parent_id ctx.doc.nodes.length).length = ctx.doc.nodes.length + 1 := by
    rw [linkNewNode_length, appendNewNode_length]
  refine ⟨rfl, ?_, ?_, ?_, rfl, rfl, rfl, rfl, rfl, rfl⟩
  · rw [hrepr, plen, hlen2]
  · intro k
    rw [hrepr, ppar k, linkNewNode_parentOf, appendNewNode_parentOf]
  · intro k
    rw [hrepr, pnext k, hlen2]
    by_cases hmem : k ∈ ctx.awaiting_subtree
    · rw [if_pos ⟨hmem, by have := haw k hmem; omega⟩, if_pos hmem]
    · rw [if_neg (by simp [hmem]), if_neg hmem, linkNewNode_nextSubtreeOf,
        appendNewNode_nextSubtreeOf]
      by_cases hk : k = ctx.doc.nodes.length
      · subst hk
        rw [if_pos rfl, nextSubtreeOf_oob (le_refl _)]
      · rw [if_neg hk]

/-- Ancestor relations in the arena after an append: a pair is related in
the new arena iff it was already related, or the descendant is the new
node `N` and the ancestor is `N` itself or an ancestor-or-self of the
parent it was appended under. -/
theorem isAnc_append {nodes nodes' : List NodeData} {N pid : Nat}
    (hN : N = nodes.length)
    (hmono : ∀ j p, parentOf nodes j = some p → p < j)
    (hpid : pid < N)
    (hpar : ∀ k, parentOf nodes' k = if k = N then some pid else parentOf nodes k) :
    ∀ n k, IsAnc nodes' n k ↔
      (IsAnc nodes n k ∨ (k = N ∧ (n = N ∨ IsAnc nodes n pid))) := by
  have hup : ∀ a b, IsAnc nodes a b → IsAnc nodes' a b := by
    intro a b h
    induction h with
    | refl => exact .refl a
    | step hanc hpar2 ih =>
      refine .step ih ?_
      rw [hpar, if_neg ?_]
      · exact hpar2
      · intro hcontra
        have hlt := parentOf_some_lt hpar2
        omega
  intro n k
  constructor
  · intro h
    induction h with
    | refl => exact Or.inl (.refl n)
    | @step p k2 hanc hpar2 ih =>
      rw [hpar] at hpar2
      by_cases hk : k2 = N
      · subst hk
        rw [if_pos rfl] at hpar2
        injection hpar2 with hp
        subst hp
        rcases ih with h1 | ⟨hpN, _⟩
        · exact Or.inr ⟨rfl, Or.inr h1⟩
        · omega
      · rw [if_neg hk] at hpar2
        rcases ih with h1 | ⟨hpN, _⟩
        · exact Or.inl (.step h1 hpar2)
        · subst hpN
          have hlt := parentOf_some_lt hpar2
          have := hmono _ _ hpar2
          omega
  · rintro (h | ⟨rfl, h2⟩)
    · exact hup n k h
    · rcases h2 with rfl | hA
      · exact .refl n
      · refine .step (hup n pid hA) ?_
        rw [hpar, if_pos rfl]

/-- The builder invariant for the subtree-skip proof, over the arena, the
"awaiting subtree" staging list, and the current parent id:
parents point strictly downwards; the current parent and every staged id
hold the current last node in their subtree; staged ids and ids with a
set skip pointer are "closed" — the current parent is outside their
subtree; a set skip pointer `m` of `n` bounds `n`'s subtree strictly
below `m` and `m - 1` still lies inside it; and every in-range node with
no skip pointer that is not staged lies on the open spine. -/
structure Inv (nodes : List NodeData) (aw : List Nat) (pid : Nat) : Prop where
  mono : ∀ j p, parentOf nodes j = some p → p < j
  plt : pid < nodes.length
  plast : IsAnc nodes pid (nodes.length - 1)
  alt : ∀ j ∈ aw, j < nodes.length
  anone : ∀ j ∈ aw, nextSubtreeOf nodes j = none
  alast : ∀ j ∈ aw, IsAnc nodes j (nodes.length - 1)
  closed : ∀ j, (j ∈ aw ∨ nextSubtreeOf nodes j ≠ none) → ¬ IsAnc nodes j pid
  nsb : ∀ n m, nextSubtreeOf nodes n = some m → n < m ∧ m < nodes.length ∧
    IsAnc nodes n (m - 1) ∧ ∀ k, m ≤ k → ¬ IsAnc nodes n k
  spine : ∀ n, n < nodes.length → nextSubtreeOf nodes n = none → n ∉ aw →
    IsAnc nodes n pid

/-- Appending a node that ends up as the only staged id, with the parent
unchanged (the text and empty-element cases), preserves the invariant. -/
theorem inv_append_stay {nodes nodes' : List NodeData} {aw : List Nat} {pid N : Nat}
    (inv : Inv nodes aw pid) (hN : N = nodes.length)
    (hlen : nodes'.length = N + 1)
    (hpar : ∀ k, parentOf nodes' k = if k = N then some pid else parentOf nodes k)
    (hnext : ∀ k, nextSubtreeOf nodes' k =
      if k ∈ aw then some N else nextSubtreeOf nodes k) :
    Inv nodes' [N] pid := by
  have hpidN : pid < N := hN ▸ inv.plt
  have E := isAnc_append hN inv.mono hpidN hpar
  have hNnotaw : N ∉ aw := fun h => absurd (inv.alt N h) (by omega)
  have mono' : ∀ j p, parentOf nodes' j = some p → p < j := by
    intro j p h
    rw [hpar] at h
    by_cases hj : j = N
    · subst hj
      rw [if_pos rfl] at h
      injection h with h
      omega
    · rw [if_neg hj] at h
      exact inv.mono j p h
  refine ⟨mono', by omega, ?_, ?_, ?_, ?_, ?_, ?_, ?_⟩
  · rw [show nodes'.length - 1 = N by omega]
    exact (E pid N).mpr (Or.inr ⟨rfl, Or.inr (.refl pid)⟩)
  · intro j hj
    have hj' := List.mem_singleton.mp hj
    omega
  · intro j hj
    have hj' := List.mem_singleton.mp hj
    rw [hj', hnext, if_neg hNnotaw, nextSubtreeOf_oob (by omega)]
  · intro j hj
    have hj' := List.mem_singleton.mp hj
    rw [hj', show nodes'.length - 1 = N by omega]
    exact .refl N
  · intro j hj hcontra
    rcases (E j pid).mp hcontra with h1 | ⟨hpN, _⟩
    · rcases hj with hj | hj
      · have hj' := List.mem_singleton.mp hj
        have := IsAnc.le inv.mono h1
        omega
      · rw [hnext] at hj
        by_cases hm : j ∈ aw
        · exact inv.closed j (Or.inl hm) h1
        · rw [if_neg hm] at hj
          exact inv.closed j (Or.inr hj) h1
    · omega
  · intro n m hm
    rw [hnext] at hm
    by_cases hmem : n ∈ aw
    · rw [if_pos hmem] at hm
      injection hm with hm
      subst hm
      have hnlt : n < N := hN ▸ inv.alt n hmem
      refine ⟨hnlt, by omega, ?_, ?_⟩
      · have h1 := inv.alast n hmem
        rw [show nodes.length - 1 = N - 1 by omega] at h1
        exact (E n (N - 1)).mpr (Or.inl h1)
      · intro k hk hcontra
        rcases (E n k).mp hcontra with h1 | ⟨rfl, h2⟩
        · have := h1.oob (by omega)
          omega
        · rcases h2 with rfl | h2
          · omega
          · exact inv.closed n (Or.inl hmem) h2
    · rw [if_neg hmem] at hm
      obtain ⟨h1, h2, h3, h4⟩ := inv.nsb n m hm
      refine ⟨h1, by omega, (E n (m - 1)).mpr (Or.inl h3), ?_⟩
      intro k hk hcontra
      rcases (E n k).mp hcontra with h5 | ⟨rfl, h6⟩
      · exact h4 k hk h5
      · rcases h6 with rfl | h6
        · omega
        · exact inv.closed n (Or.inr (by rw [hm]; simp)) h6
  · intro n hn hnone hmem
    have hnN : n ≠ N := fun h => hmem (h ▸ List.mem_singleton_self N)
    have hlt : n < N := by omega
    rw [hnext] at hnone
    by_cases hmaw : n ∈ aw
    · rw [if_pos hmaw] at hnone
      exact absurd hnone (by simp)
    · rw [if_neg hmaw] at hnone
      exact (E n pid).mpr (Or.inl (inv.spine n (by omega) hnone hmaw))

/-- Appending a node that becomes the new current parent with an empty
staging list (the `Open` case) preserves the invariant. -/
theorem inv_append_open {nodes nodes' : List NodeData} {aw : List Nat} {pid N : Nat}
    (inv : Inv nodes aw pid) (hN : N = nodes.length)
    (hlen : nodes'.length = N + 1)
    (hpar : ∀ k, parentOf nodes' k = if k = N then some pid else parentOf nodes k)
    (hnext : ∀ k, nextSubtreeOf nodes' k =
      if k ∈ aw then some N else nextSubtreeOf nodes k) :
    Inv nodes' [] N := by
  have hpidN : pid < N := hN ▸ inv.plt
  have E := isAnc_append hN inv.mono hpidN hpar
  have mono' : ∀ j p, parentOf nodes' j = some p → p < j := by
    intro j p h
    rw [hpar] at h
    by_cases hj : j = N
    · subst hj
      rw [if_pos rfl] at h
      injection h with h
      omega
    · rw [if_neg hj] at h
      exact inv.mono j p h
  refine ⟨mono', by omega, ?_, by simp, by simp, by simp, ?_, ?_, ?_⟩
  · rw [show nodes'.length - 1 = N by omega]
    exact .refl N
  · intro j hj hcontra
    have hjclosed : j ∈ aw ∨ nextSubtreeOf nodes j ≠ none := by
      rcases hj with hj | hj
      · exact absurd hj (by simp)
      · rw [hnext] at hj
        by_cases hm : j ∈ aw
        · exact Or.inl hm
        · rw [if_neg hm] at hj
          exact Or.inr hj
    have hjlt : j < N := by
      rcases hjclosed with hj2 | hj2
      · exact hN ▸ inv.alt j hj2
      · rcases hn2 : nextSubtreeOf nodes j with _ | m
        · exact absurd hn2 hj2
        · have := (inv.nsb j m hn2).1
          have := (inv.nsb j m hn2).2.1
          omega
    rcases (E j N).mp hcontra with h1 | ⟨_, h2⟩
    · have := h1.oob (by omega)
      omega
    · rcases h2 with rfl | h2
      · omega
      · exact inv.closed j hjclosed h2
  · intro n m hm
    rw [hnext] at hm
    by_cases hmem : n ∈ aw
    · rw [if_pos hmem] at hm
      injection hm with hm
      subst hm
      have hnlt : n < N := hN ▸ inv.alt n hmem
      refine ⟨hnlt, by omega, ?_, ?_⟩
      · have h1 := inv.alast n hmem
        rw [show nodes.length - 1 = N - 1 by omega] at h1
        exact (E n (N - 1)).mpr (Or.inl h1)
      · intro k hk hcontra
        rcases (E n k).mp hcontra with h1 | ⟨rfl, h2⟩
        · have := h1.oob (by omega)
          omega
        · rcases h2 with rfl | h2
          · omega
          · exact inv.closed n (Or.inl hmem) h2
    · rw [if_neg hmem] at hm
      obtain ⟨h1, h2, h3, h4⟩ := inv.nsb n m hm
      refine ⟨h1, by omega, (E n (m - 1)).mpr (Or.inl h3), ?_⟩
      intro k hk hcontra
      rcases (E n k).mp hcontra with h5 | ⟨rfl, h6⟩
      · exact h4 k hk h5
      · rcases h6 with rfl | h6
        · omega
        · exact inv.closed n (Or.inr (by rw [hm]; simp)) h6
  · intro n hn hnone _
    by_cases hnN : n = N
    · subst hnN
      exact .refl n
    · have hlt : n < N := by omega
      rw [hnext] at hnone
      by_cases hmaw : n ∈ aw
      · rw [if_pos hmaw] at hnone
        exact absurd hnone (by simp)
      · rw [if_neg hmaw] at hnone
        refine IsAnc.step ((E n pid).mpr (Or.inl (inv.spine n (by omega) hnone hmaw))) ?_
        rw [hpar, if_pos rfl]

/-- Closing the current element (staging its id and moving the parent up)
preserves the invariant; the arena itself is untouched. -/
theorem inv_close {nodes : List NodeData} {aw : List Nat} {pid pp : Nat}
    (inv : Inv nodes aw pid) (hpar : parentOf nodes pid = some pp) :
    Inv nodes (aw ++ [pid]) pp := by
  have hpplt : pp < pid := inv.mono pid pp hpar
  have hnext_pid : nextSubtreeOf nodes pid = none := by
    rcases hn : nextSubtreeOf nodes pid with _ | m
    · rfl
    · obtain ⟨h1, h2, h3, h4⟩ := inv.nsb pid m hn
      exact absurd inv.plast (h4 (nodes.length - 1) (by omega))
  have hplt := inv.plt
  refine ⟨inv.mono, by omega, IsAnc.up hpar inv.plast, ?_, ?_, ?_, ?_, inv.nsb, ?_⟩
  · intro j hj
    rcases List.mem_append.mp hj with hj | hj
    · exact inv.alt j hj
    · have hj' := List.mem_singleton.mp hj
      omega
  · intro j hj
    rcases List.mem_append.mp hj with hj | hj
    · exact inv.anone j hj
    · have hj' := List.mem_singleton.mp hj
      rw [hj']
      exact hnext_pid
  · intro j hj
    rcases List.mem_append.mp hj with hj | hj
    · exact inv.alast j hj
    · have hj' := List.mem_singleton.mp hj
      rw [hj']
      exact inv.plast
  · intro j hj hcontra
    have hstep : IsAnc nodes j pid := .step hcontra hpar
    rcases hj with hj | hj
    · rcases List.mem_append.mp hj with hj | hj
      · exact inv.closed j (Or.inl hj) hstep
      · have hj' := List.mem_singleton.mp hj
        have hle := IsAnc.le inv.mono hcontra
        omega
    · exact inv.closed j (Or.inr hj) hstep
  · intro n hn hnone hmem
    have hmemaw : n ∉ aw := fun h => hmem (List.mem_append.mpr (Or.inl h))
    have hne : n ≠ pid := fun h =>
      hmem (List.mem_append.mpr (Or.inr (h ▸ List.mem_singleton_self pid)))
    have hsp := inv.spine n hn hnone hmemaw
    rcases hsp.inv with heq | ⟨q, hq, hq2⟩
    · exact absurd heq hne
    · rw [hpar] at hq
      injection hq with hq
      rw [hq]
      exact hq2

/-- Changing the arena without touching lengths, parent links or skip
links (the text-merge case, which only rewrites a node's kind) preserves
the invariant. -/
theorem inv_congr {nodes nodes' : List NodeData} {aw : List Nat} {pid : Nat}
    (inv : Inv nodes aw pid)
    (hlen : nodes'.length = nodes.length)
    (hpar : ∀ k, parentOf nodes' k = parentOf nodes k)
    (hnext : ∀ k, nextSubtreeOf nodes' k = nextSubtreeOf nodes k) :
    Inv nodes' aw pid := by
  have hup : ∀ {a b : Nat}, IsAnc nodes a b → IsAnc nodes' a b := IsAnc.congr hpar
  have hdown : ∀ {a b : Nat}, IsAnc nodes' a b → IsAnc nodes a b :=
    IsAnc.congr (fun j => (hpar j).symm)
  have hplt := inv.plt
  refine ⟨?_, by omega, ?_, ?_, ?_, ?_, ?_, ?_, ?_⟩
  · intro j p h
    rw [hpar] at h
    exact inv.mono j p h
  · rw [hlen]
    exact hup inv.plast
  · intro j hj
    rw [hlen]
    exact inv.alt j hj
  · intro j hj
    rw [hnext]
    exact inv.anone j hj
  · intro j hj
    rw [hlen]
    exact hup (inv.alast j hj)
  · intro j hj hcontra
    refine inv.closed j ?_ (hdown hcontra)
    rcases hj with hj | hj
    · exact Or.inl hj
    · rw [hnext] at hj
      exact Or.inr hj
  · intro n m hm
    rw [hnext] at hm
    obtain ⟨h1, h2, h3, h4⟩ := inv.nsb n m hm
    exact ⟨h1, by omega, hup h3, fun k hk hc => h4 k hk (hdown hc)⟩
  · intro n hn hnone hmem
    rw [hnext] at hnone
    exact hup (inv.spine n (by omega) hnone hmem)

/-- The invariant attached to a builder context. -/
def CInv (ctx : Context) : Prop :=
  Inv ctx.doc.nodes ctx.awaiting_subtree ctx.parent_id

theorem cinv_init : CInv initContext := by
  refine ⟨?_, ?_, ?_, ?_, ?_, ?_, ?_, ?_, ?_⟩
  · intro j p h
    match j with
    | 0 => simp [parentOf, initContext] at h
    | j + 1 => simp [parentOf, initContext, List.get?] at h
  · simp [initContext]
  · exact .refl 0
  · intro j hj
    simp [initContext] at hj
  · intro j hj
    simp [initContext] at hj
  · intro j hj
    simp [initContext] at hj
  · intro j hj _
    rcases hj with hj | hj
    · simp [initContext] at hj
    · match j with
      | 0 => simp [nextSubtreeOf, initContext] at hj
      | j + 1 => simp [nextSubtreeOf, initContext, List.get?] at hj
  · intro n m hm
    match n with
    | 0 => simp [nextSubtreeOf, initContext] at hm
    | n + 1 => simp [nextSubtreeOf, initContext, List.get?] at hm
  · intro n hn _ _
    have hn0 : n = 0 := by
      simp [initContext] at hn
      omega
    rw [hn0]
    exact .refl 0

/-- `process_attribute` never touches the arena, the staging list of
awaiting ids, or the current parent. -/
theorem process_attribute_frame {rs : Nat} {pfx localName : String} {v : List Nat}
    {ctx ctx' : Context} (h : process_attribute rs pfx localName v ctx = .ok ctx') :
    ctx'.doc.nodes = ctx.doc.nodes ∧ ctx'.awaiting_subtree = ctx.awaiting_subtree ∧
    ctx'.parent_id = ctx.parent_id := by
  simp only [process_attribute] at h
  repeat' split at h
  all_goals try exact Except.noConfusion h
  all_goals injection h with h1
  all_goals rw [← h1]
  all_goals exact ⟨rfl, rfl, rfl⟩

/-- The attribute-commit loop only grows the attribute table. -/
theorem resolve_attributes_loop_frame (nsR : ShortRange) (start : Nat) :
    ∀ (l : List TempAttributeData) (ctx ctx' : Context),
      resolve_attributes_loop nsR start l ctx = .ok ctx' →
      ctx'.doc.nodes = ctx.doc.nodes ∧ ctx'.awaiting_subtree = ctx.awaiting_subtree ∧
      ctx'.parent_id = ctx.parent_id := by
  intro l
  induction l with
  | nil =>
    intro ctx ctx' h
    simp only [resolve_attributes_loop] at h
    injection h with h1
    rw [← h1]
    exact ⟨rfl, rfl, rfl⟩
  | cons a rest ih =>
    intro ctx ctx' h
    simp only [resolve_attributes_loop] at h
    split at h
    · injection h
    · split at h
      · injection h
      · obtain ⟨h1, h2, h3⟩ := ih _ _ h
        exact ⟨h1, h2, h3⟩

/-- `resolve_attributes` only grows the attribute table. -/
theorem resolve_attributes_frame {nsR : ShortRange} {ar : ShortRange} {ctx ctx' : Context}
    (h : resolve_attributes nsR ctx = .ok (ar, ctx')) :
    ctx'.doc.nodes = ctx.doc.nodes ∧ ctx'.awaiting_subtree = ctx.awaiting_subtree ∧
    ctx'.parent_id = ctx.parent_id := by
  unfold resolve_attributes at h
  split at h
  · injection h with hp
    injection hp with ha hb
    rw [← hb]
    exact ⟨rfl, rfl, rfl⟩
  · split at h
    · exact Except.noConfusion h
    · split at h
      · exact Except.noConfusion h
      · next c2 heq =>
        injection h with hp
        injection hp with ha hb
        obtain ⟨ha2, hb2, hc2⟩ := resolve_attributes_loop_frame nsR _ _ _ _ heq
        rw [← hb]
        exact ⟨ha2, hb2, hc2⟩

/-- Appending any node to an arena satisfying the invariant yields an
arena that satisfies it both with the new node as the sole awaiting id
(the committed-subtree view) and with the new node as parent and an
empty staging list (the opened-element view). -/
theorem cinv_append_node {ctx : Context} (kind : NodeKind) (inv : CInv ctx) :
    Inv (ctx.append_node kind).2.doc.nodes [ctx.doc.nodes.length] ctx.parent_id ∧
    Inv (ctx.append_node kind).2.doc.nodes [] ctx.doc.nodes.length := by
  have inv' : Inv ctx.doc.nodes ctx.awaiting_subtree ctx.parent_id := inv
  obtain ⟨s1, s2, s3, s4, s5, s6, s7, s8, s9, s10⟩ := append_node_spec ctx kind inv'.alt
  exact ⟨inv_append_stay inv' rfl s2 s3 s4, inv_append_open inv' rfl s2 s3 s4⟩

/-- Committing a text chunk preserves the builder invariant. -/
theorem process_text_inv {text : List Nat} {rs : Nat} {ctx ctx' : Context}
    (inv : CInv ctx) (h : process_text_tok text rs ctx = .ok ctx') : CInv ctx' := by
  unfold process_text_tok at h
  split at h
  · exact Except.noConfusion h
  · injection h with h1
    subst h1
    exact inv
  · next content heq =>
    injection h with h1
    subst h1
    show Inv (append_text content ctx).doc.nodes
      (append_text content ctx).awaiting_subtree (append_text content ctx).parent_id
    unfold append_text
    split
    · have hf : ∀ n : NodeData,
          ((fun n : NodeData =>
            match n.kind with
            | .Text prev => {n with kind := .Text (prev ++ content)}
            | _ => n) n).parent = n.parent := by
        intro n
        rcases n with ⟨p, ps, nx, lc, k⟩
        cases k <;> rfl
      have hf' : ∀ n : NodeData,
          ((fun n : NodeData =>
            match n.kind with
            | .Text prev => {n with kind := .Text (prev ++ content)}
            | _ => n) n).next_subtree = n.next_subtree := by
        intro n
        rcases n with ⟨p, ps, nx, lc, k⟩
        cases k <;> rfl
      exact inv_congr inv (updateNode_length _ _ _)
        (updateNode_parentOf _ _ _ hf) (updateNode_nextSubtreeOf _ _ _ hf')
    · exact (cinv_append_node (.Text content) inv).1

/-- Committing an element-end event preserves the builder invariant. -/
theorem process_element_inv {endTok : ElementEnd} {rs : Nat} {ctx ctx' : Context}
    (inv : CInv ctx) (h : process_element endTok rs ctx = .ok ctx') : CInv ctx' := by
  rcases hrn : ctx.resolve_namespaces with ⟨nsR, ctx1⟩
  obtain ⟨f1, -, -, f4, f5, -, -, -⟩ := resolve_namespaces_frame hrn
  simp only [process_element, hrn] at h
  split at h
  · split at h <;> exact Except.noConfusion h
  · split at h
    · exact Except.noConfusion h
    · next arange ctx2 heq =>
      obtain ⟨g1, g2, g3⟩ := resolve_attributes_frame heq
      have e1 : ctx2.doc.nodes = ctx.doc.nodes := by rw [g1]; exact f1
      have e2 : ctx2.awaiting_subtree = ctx.awaiting_subtree := by rw [g2]; exact f4
      have e3 : ctx2.parent_id = ctx.parent_id := by rw [g3]; exact f5
      have inv2 : CInv ctx2 := by unfold CInv; rw [e1, e2, e3]; exact inv
      split at h
      · -- Empty
        split at h
        · exact Except.noConfusion h
        · injection h with h1
          subst h1
          exact (cinv_append_node _ inv2).1
      · -- Close
        split at h
        all_goals try exact Except.noConfusion h
        next pn ppfx hget hhead =>
          split at h
          · exact Except.noConfusion h
          · split at h
            · next pid2 hpp =>
              injection h with h1
              subst h1
              have hpar : parentOf ctx2.doc.nodes ctx2.parent_id = some pid2 := by
                unfold parentOf
                rw [hget]
                exact hpp
              exact inv_close inv2 hpar
            · exact Except.noConfusion h
      · -- Open
        split at h
        · exact Except.noConfusion h
        · injection h with h1
          subst h1
          exact (cinv_append_node _ inv2).2

/-- Dispatching any single event preserves the builder invariant. -/
theorem cinv_token {ctx ctx' : Context} {t : Token} (inv : CInv ctx)
    (h : ctx.token t = .ok ctx') : CInv ctx' := by
  cases t with
  | ElementStart pfx localName start =>
    simp only [Context.token] at h
    split at h
    · exact Except.noConfusion h
    · injection h with h1
      subst h1
      exact inv
  | Attr rs pfx localName v =>
    simp only [Context.token] at h
    obtain ⟨g1, g2, g3⟩ := process_attribute_frame h
    unfold CInv
    rw [g1, g2, g3]
    exact inv
  | ElementEnd endTok rs =>
    simp only [Context.token] at h
    split at h
    · exact Except.noConfusion h
    · next c2 heq =>
      injection h with h1
      subst h1
      exact @process_element_inv endTok rs ctx c2 inv heq
  | Text text rs =>
    simp only [Context.token] at h
    exact process_text_inv inv h

/-- Folding any event list over an invariant-satisfying context
preserves the invariant. -/
theorem cinv_foldl : ∀ (ts : List Token) (c : Context), CInv c →
    ∀ {c' : Context}, ts.foldlM (fun ctx t => ctx.token t) c = .ok c' → CInv c' := by
  intro ts
  induction ts with
  | nil =>
    intro c hc c' h
    injection h with h1
    subst h1
    exact hc
  | cons t rest ih =>
    intro c hc c' h
    rw [List.foldlM_cons] at h
    rcases htok : c.token t with e | c2
    · rw [htok] at h
      exact Except.noConfusion h
    · rw [htok] at h
      exact ih c2 (cinv_token hc htok) h

/-- A successful full run of the event stream yields an
invariant-satisfying final context. -/
theorem cinv_runEvents {tokens : List Token} {ctx' : Context}
    (h : runEvents tokens = .ok ctx') : CInv ctx' :=
  cinv_foldl tokens initContext cinv_init h

/-- A successful parse is a successful run whose final context carries
the returned document. -/
theorem parseEvents_ok {tokens : List Token} {doc : Document}
    (h : parseEvents tokens = .ok doc) :
    ∃ ctx, runEvents tokens = .ok ctx ∧ ctx.doc = doc := by
  unfold parseEvents at h
  split at h
  · exact Except.noConfusion h
  · next ctx heq =>
    split at h
    · exact Except.noConfusion h
    · split at h
      · exact Except.noConfusion h
      · injection h with h1
        exact ⟨ctx, heq, h1⟩

/-- C1: for every successfully parsed document and every node `n`, the
subtree-skip pointer `next_subtree(n)` is either absent — in which case
`n`'s subtree extends to the last node of the document — or equals the
smallest node id greater than every id in `n`'s subtree (and that id is
a valid node id); and the builder achieves this by back-patching, on
every node append, every id in the awaiting-subtree staging list with
the id of the node just appended and then clearing the list (re-staging
only a freshly appended non-element node itself). -/
theorem c1_subtree_skip :
    (∀ (tokens : List Token) (doc : Document), parseEvents tokens = .ok doc →
      ∀ n, n < doc.nodes.length →
        (nextSubtreeOf doc.nodes n = none →
          IsAnc doc.nodes n (doc.nodes.length - 1)) ∧
        (∀ m, nextSubtreeOf doc.nodes n = some m →
          m < doc.nodes.length ∧
          (∀ k, IsAnc doc.nodes n k → k < m) ∧
          (∀ m', (∀ k, IsAnc doc.nodes n k → k < m') → m ≤ m'))) ∧
    (∀ (ctx : Context) (kind : NodeKind),
      (∀ j ∈ ctx.awaiting_subtree, j < ctx.doc.nodes.length) →
      (ctx.append_node kind).1 = ctx.doc.nodes.length ∧
      (∀ j ∈ ctx.awaiting_subtree,
        nextSubtreeOf (ctx.append_node kind).2.doc.nodes j =
          some (ctx.append_node kind).1) ∧
      ((ctx.append_node kind).2.awaiting_subtree =
        if kind.isElement = true then [] else [(ctx.append_node kind).1])) := by
  constructor
  · intro tokens doc hparse n hn
    obtain ⟨ctx, hrun, hdoc⟩ := parseEvents_ok hparse
    have inv : Inv ctx.doc.nodes ctx.awaiting_subtree ctx.parent_id := cinv_runEvents hrun
    have hnodes : doc.nodes = ctx.doc.nodes := by rw [← hdoc]
    rw [hnodes] at hn ⊢
    constructor
    · intro hnone
      by_cases hmem : n ∈ ctx.awaiting_subtree
      · exact inv.alast n hmem
      · exact (inv.spine n hn hnone hmem).trans inv.plast
    · intro m hm
      obtain ⟨h1, h2, h3, h4⟩ := inv.nsb n m hm
      refine ⟨h2, ?_, ?_⟩
      · intro k hk
        by_contra hlt
        exact h4 k (by omega) hk
      · intro m' hub
        have := hub (m - 1) h3
        omega
  · intro ctx kind haw
    obtain ⟨s1, s2, s3, s4, s5, s6, s7, s8, s9, s10⟩ := append_node_spec ctx kind haw
    refine ⟨s1, ?_, ?_⟩
    · intro j hj
      rw [s4 j, if_pos hj, s1]
    · rw [s5, s1]

/-- C1 witness: the `<a><b/><c/></a>` stream parses successfully, node 2
(element `b`) has skip pointer 3 (element `c`), and instantiating the
theorem at node 2 — which lies in its own subtree — yields the bound
2 < 3. -/
theorem c1_subtree_skip_witness :
    parseEvents c1Tokens = .ok (docOf (parseEvents c1Tokens)) ∧
    2 < (docOf (parseEvents c1Tokens)).nodes.length ∧
    nextSubtreeOf (docOf (parseEvents c1Tokens)).nodes 2 = some 3 ∧
    2 < 3 :=
  ⟨rfl, by decide, by decide,
    ((c1_subtree_skip.1 c1Tokens (docOf (parseEvents c1Tokens)) rfl 2
      (by decide)).2 3 (by decide)).2.1 2 (.refl 2)⟩

end Rpub
